import Mathlib

/-! Metropolis Monte Carlo for a Lennard-Jones fluid.

A shallow embedding of `NVT/NVT.c` (canonical ensemble) and `grand/grand.c`
(grand canonical ensemble).

Conventions of the embedding.

* A C `double` is an element of a linearly ordered field `K`, with exact
  arithmetic (no rounding, no underflow, no NaN, no infinities).  The definitions
  are computable for a computable `K` such as `ℚ`.  A quotient by `0` is `0` in
  the field, where the code gives an infinity or a NaN.  Statements whose truth
  in the code depends on the rounding of doubles are outside the embedding; the
  lemmas whose name ends in `_over_field` record what holds in exact arithmetic.
* A C `int` is an unbounded integer.
* The functions `sqrt`, `exp`, `log` and the constant `M_PI` of the C math
  library are the fields of a record `libm K` passed to the code that calls them.
* The global variables of each program are the fields of a `state` record that
  is passed explicitly.
* Every call of `random()`, `uniformrand()` or `randomish()` is an explicit
  argument holding the value drawn.
* The box length `L` (`const int L`) is an argument; the values of the source
  are `NVT.L_src = 200` and `grand.L_src = 22`.  The particle count `N` of
  `NVT.c` is the length of the particle array.
* Reading `particles[i]` with `i` out of range is undefined in the source; the
  embedding reads the zero particle and writes nothing there.
-/

/-- The C math library as used by the two programs: `sqrt`, `exp`, `log`, `M_PI`. -/
structure libm (K : Type) where
  sqrt : K → K
  exp : K → K
  log : K → K
  pi : K

/-- The record `struct particle { double x[3]; }`. -/
structure particle (K : Type) where
  x : Fin 3 → K

namespace particle

variable {K : Type}

/-- The assignment `q.x[i] = v`. -/
def setx (q : particle K) (i : Fin 3) (v : K) : particle K :=
  ⟨Function.update q.x i v⟩

/-- The particle with coordinates `a`, `b`, `c`. -/
def mk3 (a b c : K) : particle K :=
  ⟨fun i => if i = 0 then a else if i = 1 then b else c⟩

instance [Zero K] : Inhabited (particle K) := ⟨⟨fun _ => 0⟩⟩

/-- All three coordinates lie in the half-open interval `[0, L)`. -/
def inBox [LinearOrderedField K] (L : K) (q : particle K) : Prop :=
  ∀ i : Fin 3, 0 ≤ q.x i ∧ q.x i < L

end particle

/-! ## NVT.c -/

namespace NVT

variable {K : Type} [LinearOrderedField K]

/-- The constant `const int L = 200`. -/
def L_src : K := 200

/-- The constant `const double T = 77`. -/
def T : K := 77

/-- The constant `const double k = 1.0`. -/
def k : K := 1

/-- The value of `RAND_MAX` for `random()`. -/
def RAND_MAX : Nat := 2147483647

/-- The record `struct move_values { int p; double delta, gamma, zeta; }`. -/
structure move_values (K : Type) where
  p : Nat
  delta : K
  gamma : K
  zeta : K

/-- The globals of `NVT.c`: the array `particles[N]` and the record `move`. -/
structure state (K : Type) where
  particles : List (particle K)
  move : move_values K

/-- One iteration of the loop of `positionchecker` on the coordinate `i`:
two consecutive `if`s, the second one reading the value the first one left.
The sums `+ L` and `- L` are exact here and rounded to a double in the source. -/
def positionchecker_axis (L : K) (q : particle K) (i : Fin 3) : particle K :=
  let q1 := if q.x i ≥ L then q.setx i (q.x i - L) else q
  if q1.x i < 0 then q1.setx i (q1.x i + L) else q1

/-- The function `positionchecker(id_a)`: the loop `for(i=0;i<3;i++)` over the
coordinates of `particles[id_a]`. -/
def positionchecker (L : K) (id_a : Nat) (particles : List (particle K)) :
    List (particle K) :=
  particles.modify (fun q => ([0, 1, 2] : List (Fin 3)).foldl (positionchecker_axis L) q) id_a

/-- The body of `rand_p_mover` after the draws: store `p` and the offsets in
`move`, add the offsets to `particles[p]`, call `positionchecker(p)`. -/
def rand_p_mover_update (L : K) (p : Nat) (delta gamma zeta : K) (s : state K) : state K :=
  let moved := s.particles.modify
    (fun q => ((q.setx 0 (q.x 0 + delta)).setx 1 (q.x 1 + gamma)).setx 2 (q.x 2 + zeta)) p
  { particles := positionchecker L p moved, move := ⟨p, delta, gamma, zeta⟩ }

/-- The function `rand_p_mover`: `r` is the value of `random()`, and `u1`, `u2`,
`u3` are the three values of `uniformrand()`. -/
def rand_p_mover (L : K) (r : Nat) (u1 u2 u3 : K) (s : state K) : state K :=
  let N := s.particles.length
  rand_p_mover_update L (r / (RAND_MAX / N + 1))
    ((u1 - 0.5) * L) ((u2 - 0.5) * L) ((u3 - 0.5) * L) s

/-- The function `rand_p_unmover`: subtract the offsets stored in `move` from
`particles[move.p]`, then call `positionchecker`. -/
def rand_p_unmover (L : K) (s : state K) : state K :=
  let p := s.move.p
  let moved := s.particles.modify
    (fun q => ((q.setx 0 (q.x 0 - s.move.delta)).setx 1 (q.x 1 - s.move.gamma)).setx 2
      (q.x 2 - s.move.zeta)) p
  { s with particles := positionchecker L p moved }

/-- The function `distfinder(id_a, id_b)`: per coordinate the absolute difference,
reduced by `cutoff` when it exceeds `cutoff`; the square root of the sum of squares. -/
def distfinder (M : libm K) (L : K) (particles : List (particle K)) (id_a id_b : Nat) : K :=
  let cutoff := 0.5 * L
  let delta2 := ([0, 1, 2] : List (Fin 3)).foldl
    (fun delta2 i =>
      let delta := |(particles.getD id_a default).x i - (particles.getD id_b default).x i|
      let delta := if delta > cutoff then delta - cutoff else delta
      delta2 + delta * delta) 0
  M.sqrt delta2

/-- The body of the inner loop of `PEfinder` for the pair `(b, c)`, with `pe` the
accumulator: `continue` when `r < cutoff`, else add the Lennard-Jones term. -/
def PEfinder_body (M : libm K) (L : K) (particles : List (particle K)) (pe : K) (b c : Nat) :
    K :=
  let epsilon : K := 128.326802
  let sigma : K := 3.371914
  let s2 := sigma * sigma
  let s6 := s2 * s2 * s2
  let s12 := s6 * s6
  let cutoff := L * 0.5
  let r := distfinder M L particles b c
  if r < cutoff then pe
  else
    let rinv := 1 / r
    let r2 := rinv * rinv
    let r6 := r2 * r2 * r2
    let r12 := r6 * r6
    let sor6 := r6 * s6
    let sor12 := r12 * s12
    pe + (4 * epsilon * (sor12 - sor6))

/-- The function `PEfinder`: `for(b=0;b<N;b++) for(c=b+1;c<N;c++)` with `pe = 0`
at the start, `N` being the length of the array. -/
def PEfinder (M : libm K) (L : K) (particles : List (particle K)) : K :=
  let N := particles.length
  (List.range N).foldl
    (fun pe b => (List.range' (b + 1) (N - (b + 1))).foldl
      (fun pe c => PEfinder_body M L particles pe b c) pe) 0

/-- The function `E_checker(cpe, npe, c)`; `guess` is the value of
`(double)random()/(double)RAND_MAX`.  The result is the value returned and the
line appended to `energies.dat`. -/
def E_checker (M : libm K) (cpe npe : K) (c : Int) (guess : K) : Bool × List (Int × K) :=
  let deltaE := npe - cpe
  let beta := 1 / (k * T)
  if deltaE < 0 then (true, [(c, npe)])
  else
    let prob := M.exp (-1 * beta * deltaE)
    if prob > guess then (true, [(c, npe)])
    else (false, [(c, cpe)])

/-- The values drawn from the random stream during one iteration of the loop of
`main`: `r` is `random()` in `rand_p_mover`, `u1 u2 u3` are the three values of
`uniformrand()` there, and `guess` is `(double)random()/(double)RAND_MAX` in
`E_checker`. -/
structure draws (K : Type) where
  r : Nat
  u1 : K
  u2 : K
  u3 : K
  guess : K

/-- The function `helmholtz(new_energy, past_energy, c)`: the value returned
(`expo`) and the line appended to `free_energies.dat`. -/
def helmholtz (M : libm K) (new_energy past_energy : K) (c : Int) : K × List (Int × K) :=
  let delta := new_energy - past_energy
  let beta := 1 / (k * T)
  let expo := M.exp (-1 * delta * beta)
  let helmholtz := k * T * M.log (expo / (c : K))
  (expo, [(c, helmholtz)])

/-- The globals, the local variables of `main` that live across iterations, and
the output files: the frames appended to `positions.xyz` by `output_to_file`, the
lines of `energies.dat`, the lines of `free_energies.dat`.  The field `attempts`
is not in the source: it counts the calls of `rand_p_mover`. -/
structure main_vars (K : Type) where
  s : state K
  positions : List (List (particle K))
  energies : List (Int × K)
  free_energies : List (Int × K)
  cpe : K
  sum : K
  sum_past_energy : K
  attempts : Nat

/-- The part of `main` before the `for` loop; `start` is the content of
`startingpositions.txt` read by `starting_positions`.  The energy `cpe` of the
start is computed, one frame is written, and `0 cpe` is written to
`energies.dat`. -/
def main_init (M : libm K) (L : K) (start : List (particle K)) : main_vars K :=
  let s : state K := ⟨start, ⟨0, 0, 0, 0⟩⟩
  let cpe := PEfinder M L s.particles
  { s := s, positions := [s.particles], energies := [(0, cpe)], free_energies := [],
    cpe := cpe, sum := cpe, sum_past_energy := 0, attempts := 0 }

/-- One iteration of the `for` loop of `main` at step `c`, with the draws `d`. -/
def main_body (M : libm K) (L : K) (c : Int) (d : draws K) (v : main_vars K) : main_vars K :=
  let s1 := rand_p_mover L d.r d.u1 d.u2 d.u3 v.s
  let npe := PEfinder M L s1.particles
  let guess := E_checker M v.cpe npe c d.guess
  if guess.1 = true then
    let past_energy := v.cpe
    let cpe := npe
    let sum_past_energy := v.sum_past_energy + past_energy
    let sum := v.sum + cpe
    { s := s1, positions := v.positions ++ [s1.particles], energies := v.energies ++ guess.2,
      free_energies := v.free_energies ++ (helmholtz M sum sum_past_energy c).2,
      cpe := cpe, sum := sum, sum_past_energy := sum_past_energy,
      attempts := v.attempts + 1 }
  else
    let s2 := rand_p_unmover L s1
    let sum := v.sum + v.cpe
    { s := s2, positions := v.positions ++ [s2.particles], energies := v.energies ++ guess.2,
      free_energies := v.free_energies ++ (helmholtz M sum sum c).2,
      cpe := v.cpe, sum := sum, sum_past_energy := v.sum_past_energy,
      attempts := v.attempts + 1 }

/-- The values of `c` in the loop `for(c=1;c<m;c++)`: `1, ..., m-1`. -/
def steps (m : Int) : List Nat :=
  List.range' 1 (m - 1).toNat

/-- The `for` loop of `main` over the given values of `c`; `d c` holds the draws
of step `c`. -/
def main_loop (M : libm K) (L : K) (d : Nat → draws K) (cs : List Nat) (v : main_vars K) :
    main_vars K :=
  cs.foldl (fun v (c : Nat) => main_body M L (c : Int) (d c) v) v

/-- The function `main`: `m` is the number read by `scanf`.  The result is the
state at the end of the loop and the value `average = sum / m` that is printed. -/
def main (M : libm K) (L : K) (m : Int) (start : List (particle K)) (d : Nat → draws K) :
    main_vars K × K :=
  let v := main_loop M L d (steps m) (main_init M L start)
  (v, v.sum / (m : K))

end NVT

/-! ## grand.c -/

namespace grand

variable {K : Type} [LinearOrderedField K]

/-- The constant `const int L = 22`. -/
def L_src : K := 22

/-- The constant `const int T = 101`. -/
def T : K := 101

/-- The constant `const double k = 1.0`. -/
def k : K := 1

/-- The constant `const double h = 6.626 * pow(10,-34)`. -/
def h : K := 6.626 * (10 : K) ^ (-34 : ℤ)

/-- The record `struct move_values { int pick; double phi,gamma,delta; }`. -/
structure move_values (K : Type) where
  pick : Nat
  phi : K
  gamma : K
  delta : K

/-- The record `struct create_values { int pick; double phi, gamma, delta; }`. -/
structure create_values (K : Type) where
  pick : Nat
  phi : K
  gamma : K
  delta : K

/-- The record `struct remove_values { int pick; double phi, gamma, delta; }`. -/
structure remove_values (K : Type) where
  pick : Nat
  phi : K
  gamma : K
  delta : K

/-- The globals of `grand.c`: the vector `particles` and the records `move`,
`creator` and `destroy`. -/
structure state (K : Type) where
  particles : List (particle K)
  move : move_values K
  creator : create_values K
  destroy : remove_values K

/-- The globals at program start: an empty vector and zero-initialised records. -/
def state.init : state K :=
  ⟨[], ⟨0, 0, 0, 0⟩, ⟨0, 0, 0, 0⟩, ⟨0, 0, 0, 0⟩⟩

/-- The loop of `positionchecker` over the remaining coordinates: the first
coordinate found outside `[0, L)` is shifted by `L` and the function returns
`false` at once; `true` when the loop ends. -/
def positionchecker_loop (L : K) : List (Fin 3) → particle K → Bool × particle K
  | [], q => (true, q)
  | i :: rest, q =>
    if q.x i ≥ L then (false, q.setx i (q.x i - L))
    else if q.x i < 0 then (false, q.setx i (q.x i + L))
    else positionchecker_loop L rest q

/-- The function `positionchecker(particleID)`: the value returned and the new
vector. -/
def positionchecker (L : K) (particleID : Nat) (particles : List (particle K)) :
    Bool × List (particle K) :=
  let r := positionchecker_loop L [0, 1, 2] (particles.getD particleID default)
  (r.1, particles.modify (fun _ => r.2) particleID)

/-- The function `particleunmover`: subtract the offsets stored in `move` from
`particles[move.pick]`; no call of `positionchecker`. -/
def particleunmover (s : state K) : state K :=
  let pick := s.move.pick
  let phi := s.move.phi
  let gamma := s.move.gamma
  let delta := s.move.delta
  let moved := s.particles.modify
    (fun q => ((q.setx 0 (q.x 0 - phi)).setx 1 (q.x 1 - gamma)).setx 2 (q.x 2 - delta)) pick
  { s with particles := moved }

/-- The function `particlemover(pick)`.  The argument list holds, for each
iteration of the `while` loop, the three values of `randomish()` drawn there; the
result is `none` when the list ends before `positionchecker` returns `true`. -/
def particlemover (L : K) (pick : Nat) : List (K × K × K) → state K → Option (state K)
  | [], _ => none
  | (u1, u2, u3) :: rest, s =>
    let phi := (u1 - 0.5) * L
    let gamma := (u2 - 0.5) * L
    let delta := (u3 - 0.5) * L
    let moved := s.particles.modify
      (fun q => ((q.setx 0 (q.x 0 + phi)).setx 1 (q.x 1 + gamma)).setx 2 (q.x 2 + delta)) pick
    let r := positionchecker L pick moved
    let s1 : state K := { s with move := ⟨pick, phi, gamma, delta⟩, particles := r.2 }
    if r.1 = false then particlemover L pick rest (particleunmover s1)
    else some s1

/-- The function `thecreator`; `u0`, `u1`, `u2` are the three values of
`randomish()`. -/
def thecreator (L : K) (u0 u1 u2 : K) (s : state K) : state K :=
  let added : particle K := particle.mk3 (u0 * L) (u1 * L) (u2 * L)
  let particles := s.particles ++ [added]
  let pool := particles.length - 1
  { s with particles := particles, creator := ⟨pool, added.x 0, added.x 1, added.x 2⟩ }

/-- The function `thedestroyer(pick)`: record `particles[pick]` in `destroy`, then
erase it from the vector. -/
def thedestroyer (pick : Nat) (s : state K) : state K :=
  let q := s.particles.getD pick default
  { s with destroy := ⟨pick, q.x 0, q.x 1, q.x 2⟩, particles := s.particles.eraseIdx pick }

/-- The values drawn from the random stream during one iteration of the loop of
`main`: `pick` is `random()` in `random()%pool`, `choice` is `randomish()` in
`randomish()*3`, `moves` are the draws of `particlemover`, `u0 u1 u2` the draws of
`thecreator`, and `guess` is `(double)random()/(double)RAND_MAX` in `move_acceptor`. -/
structure draws (K : Type) where
  pick : Nat
  choice : K
  moves : List (K × K × K)
  u0 : K
  u1 : K
  u2 : K
  guess : K

/-- The function `move_chooser`: the flag returned and the new globals; `none`
when `particlemover` does not return. -/
def move_chooser (L : K) (d : draws K) (s : state K) : Option (Int × state K) :=
  let pool := s.particles.length
  if pool = 0 then
    some (0, thecreator L d.u0 d.u1 d.u2 s)
  else
    let pick := d.pick % pool
    let choice := d.choice * 3
    if choice < 1.0 then
      (particlemover L pick d.moves s).map (fun s1 => (0, s1))
    else if choice > 2.0 then
      some (1, thecreator L d.u0 d.u1 d.u2 s)
    else
      some (2, thedestroyer pick s)

/-- The function `move_undoer(flag)`.  The last branch pushes a particle built
from the record `creator`. -/
def move_undoer (flag : Int) (s : state K) : state K :=
  if flag = 0 then particleunmover s
  else if flag = 1 then thedestroyer s.creator.pick s
  else
    let added : particle K := particle.mk3 s.creator.phi s.creator.gamma s.creator.delta
    { s with particles := s.particles ++ [added] }

/-- The function `distfinder(id_a, id_b)` of `grand.c`. -/
def distfinder (M : libm K) (L : K) (particles : List (particle K)) (id_a id_b : Nat) : K :=
  let cutoff := 0.5 * L
  let delta2 := ([0, 1, 2] : List (Fin 3)).foldl
    (fun delta2 i =>
      let delta := |(particles.getD id_a default).x i - (particles.getD id_b default).x i|
      let delta := if delta > cutoff then delta - cutoff else delta
      delta2 + delta * delta) 0
  M.sqrt delta2

/-- The body of the inner loop of `pecalc` for the pair `(b, c)`. -/
def pecalc_body (M : libm K) (L : K) (particles : List (particle K)) (pe : K) (b c : Nat) : K :=
  let sigma : K := 3.371914
  let epsilon : K := 128.326802
  let cutoff := L * 0.5
  let s2 := sigma * sigma
  let s6 := s2 * s2 * s2
  let s12 := s6 * s6
  let r := distfinder M L particles b c
  if r < cutoff then pe
  else
    let rinv := 1 / r
    let r2 := rinv * rinv
    let r6 := r2 * r2 * r2
    let r12 := r6 * r6
    let sor6 := s6 * r6
    let sor12 := s12 * r12
    pe + (4 * epsilon * (sor12 - sor6))

/-- The function `pecalc`: `for(b=0;b<pool-1;b++) for(c=b+1;c<pool;c++)`.  The
variable `pool` is an `int`, so `pool-1` is `-1` for the empty vector and the
outer loop is not entered; the truncated subtraction gives the same range. -/
def pecalc (M : libm K) (L : K) (particles : List (particle K)) : K :=
  let pool := particles.length
  (List.range (pool - 1)).foldl
    (fun pe b => (List.range' (b + 1) (pool - (b + 1))).foldl
      (fun pe c => pecalc_body M L particles pe b c) pe) 0

/-- The function `move_acceptor(cpe, npe, c, flag)`; `guess` is the value of
`(double)random()/(double)RAND_MAX`, drawn only when `flag == 0` and
`delta >= 0`.  The result is the value returned and the lines appended to
`energies.dat` (none when the final `return true` is reached).  Where `M.exp`
gives `0` the quotient of the deletion test is `0` here and an infinity or a NaN
in the source; a double `exp` underflows to `0`, a positive `M.exp` never does. -/
def move_acceptor (M : libm K) (L : K) (particles : List (particle K)) (cpe npe : K)
    (c : Int) (flag : Int) (guess : K) : Bool × List (Int × K) :=
  let beta := 1 / (k * T)
  let delta := npe - cpe
  let pool : Nat := particles.length
  let poolplus : Nat := pool + 1
  let volume : K := L * L * L
  let density : K := (pool : K) / volume
  let pi := M.pi
  let m : K := 39.948
  let lambda := h / M.sqrt (2 * pi * m * k * T)
  let lambdacubed := lambda * lambda * lambda
  let mu := k * T * M.log lambdacubed * density
  let relativemu := mu - (k * T * M.log lambdacubed)
  if delta < 0 then (true, [(c, npe)])
  else if flag = 0 then
    let probability := M.exp (-1 * beta * delta)
    if probability > guess then (true, [(c, npe)])
    else (false, [(c, npe)])
  else if flag = 1 then
    let acceptance := -(beta * delta) + (beta * relativemu) + M.log (volume / (poolplus : K))
    let condition := M.exp acceptance
    if condition < 1 then (true, [(c, npe)])
    else (false, [(c, npe)])
  else if flag = 2 then
    let oneterm := -(beta * delta) - (beta * relativemu)
    let acceptance := M.exp oneterm
    let condition := (pool : K) / (volume * acceptance)
    if condition < 1 then (true, [(c, npe)])
    else (false, [(c, npe)])
  else (true, [])

/-- The conversion of a `double` to an `int`: truncation toward zero.  The result
is unbounded here; in the source a value beyond the range of `int` is undefined. -/
def double_to_int [FloorRing K] (x : K) : Int :=
  if 0 ≤ x then ⌊x⌋ else ⌈x⌉

/-- The function `qst_calc(N, energy, c)`: the value returned, which is also the
value written to `qsts.dat` after `c`.  The quotient `N/c` is a division of two
`int`s.  With a zero denominator the last quotient is `0` here and an infinity or
a NaN in the source. -/
def qst_calc (N : Int) (energy : K) (c : Int) : K :=
  let average_N : K := ((N.tdiv c : Int) : K)
  let average_N_all_squared := average_N * average_N
  let average_energy := energy / (c : K)
  let N_squared := average_N * average_N
  let average_of_N_squared := N_squared * N_squared
  let particles_by_energy := average_N * average_energy
  let average_of_particles_by_energy := particles_by_energy / (c : K)
  let numerator := average_of_particles_by_energy - (average_N * average_energy)
  let denominator := average_of_N_squared - average_N_all_squared
  let QST := k * T - (numerator / denominator)
  QST

/-- The three output files: the frames appended to `positions.xyz` by `output`,
the lines of `energies.dat`, the lines of `qsts.dat`. -/
structure files (K : Type) where
  positions : List (List (particle K))
  energies : List (Int × K)
  qsts : List (Int × K)

/-- The globals, the local variables of `main` that live across iterations, and
the output files. -/
structure main_vars (K : Type) where
  s : state K
  out : files K
  cpe : K
  sumenergy : K
  sumparticles : K
  m : Int

/-- The part of `main` before the `for` loop: the files are emptied, `cpe` is
`pecalc()` on the initial globals and is written after `0` to `energies.dat`,
`m` is the size of the vector, and the two sums start at `cpe` and `m`. -/
def main_init (M : libm K) (L : K) : main_vars K :=
  let s : state K := state.init
  let cpe := pecalc M L s.particles
  let m : Int := s.particles.length
  { s := s, out := ⟨[], [(0, cpe)], []⟩, cpe := cpe, sumenergy := cpe,
    sumparticles := (m : K), m := m }

/-- One iteration of the `for` loop of `main` at step `c`, with the draws `d`: the
`while(m>=0)` loop, whose body ends in `break` on both branches, runs its body
once when `m >= 0`.  The result is `none` when `particlemover` does not return. -/
def main_body [FloorRing K] (M : libm K) (L : K) (c : Int) (d : draws K) (v : main_vars K) :
    Option (main_vars K) :=
  if v.m ≥ 0 then
    (move_chooser L d v.s).map (fun fs =>
      let flag := fs.1
      let s1 := fs.2
      let npe := pecalc M L s1.particles
      let acc := move_acceptor M L s1.particles v.cpe npe c flag d.guess
      let energies := v.out.energies ++ acc.2
      if acc.1 = true then
        let m : Int := s1.particles.length
        let positions := v.out.positions ++ [s1.particles]
        let cpe := npe
        let sumenergy := v.sumenergy + cpe
        let sumparticles := v.sumparticles + (m : K)
        let QST := qst_calc (double_to_int sumparticles) sumenergy c
        { s := s1, out := ⟨positions, energies, v.out.qsts ++ [(c, QST)]⟩, cpe := cpe,
          sumenergy := sumenergy, sumparticles := sumparticles, m := m }
      else
        let m : Int := s1.particles.length
        let s2 := move_undoer flag s1
        let positions := v.out.positions ++ [s2.particles]
        let sumenergy := v.sumenergy + v.cpe
        let sumparticles := v.sumparticles + (m : K)
        let QST := qst_calc (double_to_int sumparticles) sumenergy c
        { s := s2, out := ⟨positions, energies, v.out.qsts ++ [(c, QST)]⟩, cpe := v.cpe,
          sumenergy := sumenergy, sumparticles := sumparticles, m := m })
  else some v

/-- The values of `c` in the loop `for(c=1;c<max;c++)`: `1, ..., max-1`. -/
def steps (max : Int) : List Nat :=
  List.range' 1 (max - 1).toNat

/-- The `for` loop of `main` over the given values of `c`; `d c` holds the draws
of step `c`.  The second component is not in the source: it counts the calls of
`move_chooser`.  The result is `none` when `particlemover` does not return. -/
def main_loop [FloorRing K] (M : libm K) (L : K) (d : Nat → draws K) :
    List Nat → main_vars K × Nat → Option (main_vars K × Nat)
  | [], va => some va
  | c :: rest, va =>
    match main_body M L (c : Int) (d c) va.1 with
    | none => none
    | some w => main_loop M L d rest (w, if va.1.m ≥ 0 then va.2 + 1 else va.2)

/-- The function `main`: `max` is the number read by `scanf`. -/
def main [FloorRing K] (M : libm K) (L : K) (max : Int) (d : Nat → draws K) :
    Option (main_vars K × Nat) :=
  main_loop M L d (steps max) (main_init M L, 0)

end grand

/-! ## Auxiliary definitions for the statements -/

section aux

variable {K : Type} [LinearOrderedField K]

/-- The effect of `NVT.positionchecker` on one coordinate. -/
def wrap1 (L x : K) : K :=
  let x1 := if x ≥ L then x - L else x
  if x1 < 0 then x1 + L else x1

/-- The Lennard-Jones pair energy as the specification writes it:
`4ε·(σ¹²/r¹² − σ⁶/r⁶)`. -/
def lj_spec (epsilon sigma r : K) : K :=
  4 * epsilon * (sigma ^ 12 / r ^ 12 - sigma ^ 6 / r ^ 6)

/-- The reference definition of the total energy, following the specification: the
sum, over the index pairs `b < c` below `n` whose distance `dist b c` is not less
than `cutoff`, of the Lennard-Jones pair energy at that distance. -/
def total_energy_spec (dist : Nat → Nat → K) (n : Nat) (cutoff epsilon sigma : K) : K :=
  Finset.sum ((Finset.range n ×ˢ Finset.range n).filter
      (fun bc => bc.1 < bc.2 ∧ ¬ dist bc.1 bc.2 < cutoff))
    (fun bc => lj_spec epsilon sigma (dist bc.1 bc.2))

/-- The contribution of one pair at distance `r`: nothing below the cutoff `L/2`. -/
def pair_energy (L r : K) : K :=
  if r < L / 2 then 0 else lj_spec 128.326802 3.371914 r

/-- The double sum over `b < N` and `b + 1 ≤ c < N` of `t b c`, in loop order. -/
def index_pair_sum (t : Nat → Nat → K) (N : Nat) : K :=
  ((List.range N).map
    (fun b => ((List.range' (b + 1) (N - (b + 1))).map (fun c => t b c)).sum)).sum

/-- The sum of `f a b` over the pairs of a list, the first component standing
before the second in the list. -/
def pair_sum {α : Type} (f : α → α → K) : List α → K
  | [] => 0
  | a :: l => (l.map (f a)).sum + pair_sum f l

/-- The distance `distfinder` computes, as a function of the two particles. -/
def particle_dist (M : libm K) (L : K) (a b : particle K) : K :=
  M.sqrt (([0, 1, 2] : List (Fin 3)).foldl
    (fun delta2 i =>
      let delta := |a.x i - b.x i|
      let delta := if delta > 0.5 * L then delta - 0.5 * L else delta
      delta2 + delta * delta) 0)

/-- The thermal wavelength of the specification, `λ = h/√(2πmkT)`, with the mass
`m = 39.948` and the constants of `grand.c`. -/
def thermal_wavelength (M : libm K) : K :=
  grand.h / M.sqrt (2 * M.pi * 39.948 * grand.k * grand.T)

/-- The relative chemical potential as the claims write it:
`k*T*ln(λ³)*(N/V) − k*T*ln(λ³)` with `V = L³`. -/
def mu_rel_spec (M : libm K) (L : K) (N : Nat) : K :=
  grand.k * grand.T * M.log (thermal_wavelength M ^ 3) * ((N : K) / L ^ 3)
    - grand.k * grand.T * M.log (thermal_wavelength M ^ 3)

/-- The left side of the deletion test as the specification writes it:
`N / (V·exp(−β·ΔE − β·μ_rel))`. -/
def deletion_condition_spec (M : libm K) (L : K) (N : Nat) (deltaE : K) : K :=
  (N : K) / (L ^ 3 * M.exp (-(1 / (grand.k * grand.T)) * deltaE
    - 1 / (grand.k * grand.T) * mu_rel_spec M L N))

/-- The isosteric heat as claim C17 writes it, with the averages `avgN = SN/c` and
`avgU = SU/c` taken in the field. -/
def qst_spec (SN SU c : K) : K :=
  grand.k * grand.T - ((SN / c) * (SU / c) / c - (SN / c) * (SU / c))
    / ((SN / c) ^ 4 - (SN / c) ^ 2)

/-- The local variable `average_N` of `qst_calc`: the quotient `N/c` of two `int`s,
converted to `double`. -/
def qst_average_N (N c : Int) : K :=
  ((N.tdiv c : Int) : K)

/-- The local variable `denominator` of `qst_calc`, computed as there. -/
def qst_denominator (N c : Int) : K :=
  let average_N : K := qst_average_N N c
  let average_N_all_squared := average_N * average_N
  let N_squared := average_N * average_N
  let average_of_N_squared := N_squared * N_squared
  average_of_N_squared - average_N_all_squared

end aux

/-! ## Lemmas on particles and lists -/

section generic

variable {K : Type}

theorem particle.ext_x {q r : particle K} (h : ∀ i, q.x i = r.x i) : q = r := by
  cases q; cases r; simp only [particle.mk.injEq]; exact funext h

theorem particle.setx3_x (q : particle K) (a b c : K) (j : Fin 3) :
    (((q.setx 0 a).setx 1 b).setx 2 c).x j = if j = 0 then a else if j = 1 then b else c := by
  unfold particle.setx
  fin_cases j <;> simp [Function.update]

theorem particle.mk3_x0 (a b c : K) : (particle.mk3 a b c).x 0 = a := rfl

theorem particle.mk3_x1 (a b c : K) : (particle.mk3 a b c).x 1 = b := rfl

theorem particle.mk3_x2 (a b c : K) : (particle.mk3 a b c).x 2 = c := rfl

theorem particle.mk3_setx0 (a b c v : K) :
    (particle.mk3 a b c).setx 0 v = particle.mk3 v b c := by
  apply particle.ext_x; intro i; fin_cases i <;> simp [particle.mk3, particle.setx]

theorem particle.mk3_setx1 (a b c v : K) :
    (particle.mk3 a b c).setx 1 v = particle.mk3 a v c := by
  apply particle.ext_x; intro i; fin_cases i <;> simp [particle.mk3, particle.setx]

theorem particle.mk3_setx2 (a b c v : K) :
    (particle.mk3 a b c).setx 2 v = particle.mk3 a b v := by
  apply particle.ext_x; intro i; fin_cases i <;> simp [particle.mk3, particle.setx]

theorem particle.mk3_inj (a b c a' b' c' : K) :
    particle.mk3 a b c = particle.mk3 a' b' c' ↔ a = a' ∧ b = b' ∧ c = c' := by
  constructor
  · intro h
    exact ⟨by simpa [particle.mk3] using congrArg (fun q => q.x 0) h,
      by simpa [particle.mk3] using congrArg (fun q => q.x 1) h,
      by simpa [particle.mk3] using congrArg (fun q => q.x 2) h⟩
  · rintro ⟨rfl, rfl, rfl⟩; rfl

theorem List.modify_eq_of_fix {α : Type} (f : α → α) (l : List α) (n : Nat)
    (h : ∀ a ∈ l, f a = a) : l.modify f n = l := by
  induction l generalizing n with
  | nil => simp
  | cons a l ih =>
    cases n with
    | zero => simp [h a (List.mem_cons_self a l)]
    | succ n =>
      simp only [List.modify_succ_cons]
      rw [ih n (fun b hb => h b (List.mem_cons_of_mem a hb))]

theorem List.forall_mem_modify {α : Type} (P : α → Prop) (f : α → α) (l : List α) (n : Nat)
    (h : ∀ a ∈ l, P a) (hf : ∀ a ∈ l, P (f a)) : ∀ a ∈ l.modify f n, P a := by
  induction l generalizing n with
  | nil => simp
  | cons a l ih =>
    have ha := h a (List.mem_cons_self a l)
    have hl : ∀ b ∈ l, P b := fun b hb => h b (List.mem_cons_of_mem a hb)
    have hfl : ∀ b ∈ l, P (f b) := fun b hb => hf b (List.mem_cons_of_mem a hb)
    cases n with
    | zero =>
      intro b hb
      simp only [List.modify_zero_cons, List.mem_cons] at hb
      rcases hb with rfl | hb
      · exact hf a (List.mem_cons_self a l)
      · exact hl b hb
    | succ n =>
      intro b hb
      simp only [List.modify_succ_cons, List.mem_cons] at hb
      rcases hb with rfl | hb
      · exact ha
      · exact ih n hl hfl b hb

theorem List.getD_modify_self {α : Type} (f : α → α) (l : List α) (n : Nat) (d : α)
    (h : n < l.length) : (l.modify f n).getD n d = f (l.getD n d) := by
  simp [List.getD_eq_getElem?_getD, List.getElem?_modify_eq, List.getElem?_eq_getElem h]

end generic

/-! ## Lemmas on the periodic wrap -/

section wrap

variable {K : Type} [LinearOrderedField K]

theorem NVT.positionchecker_axis_x (L : K) (q : particle K) (i j : Fin 3) :
    (NVT.positionchecker_axis L q i).x j = if j = i then wrap1 L (q.x j) else q.x j := by
  unfold NVT.positionchecker_axis wrap1 particle.setx
  by_cases hji : j = i
  · subst hji
    by_cases h1 : q.x j ≥ L <;> by_cases h2 : q.x j - L < 0 <;> by_cases h3 : q.x j < 0 <;>
      simp [h1, h2, h3]
  · by_cases h1 : q.x i ≥ L <;> by_cases h2 : q.x i - L < 0 <;> by_cases h3 : q.x i < 0 <;>
      simp [h1, h2, h3, hji, Function.update_noteq]

theorem NVT.positionchecker_loop_x (L : K) (q : particle K) (j : Fin 3) :
    (([0, 1, 2] : List (Fin 3)).foldl (NVT.positionchecker_axis L) q).x j = wrap1 L (q.x j) := by
  simp only [List.foldl_cons, List.foldl_nil, NVT.positionchecker_axis_x]
  fin_cases j <;> simp

theorem wrap1_mem (L x : K) (h1 : -L ≤ x) (h2 : x < 2 * L) :
    0 ≤ wrap1 L x ∧ wrap1 L x < L := by
  unfold wrap1
  by_cases ha : x ≥ L
  · have hb : ¬ (x - L < 0) := by linarith
    simp only [ha, hb, if_true, if_false]
    constructor <;> linarith
  · by_cases hb : x < 0
    · simp only [ha, hb, if_true, if_false]
      constructor <;> linarith
    · simp only [ha, hb, if_false]
      constructor <;> linarith

theorem wrap1_undo (L x d : K) (hx0 : 0 ≤ x) (hxL : x < L) :
    wrap1 L (wrap1 L (x + d) - d) = x := by
  unfold wrap1
  by_cases ha : x + d ≥ L
  · have hb : ¬ (x + d - L < 0) := by linarith
    have hc : ¬ (x + d - L - d ≥ L) := by linarith
    have he : x + d - L - d < 0 := by linarith
    simp only [ha, hb, hc, he, if_true, if_false]
    ring
  · by_cases hb : x + d < 0
    · have hc : x + d + L - d ≥ L := by linarith
      have he : ¬ (x + d + L - d - L < 0) := by linarith
      simp only [ha, hb, hc, he, if_true, if_false]
      ring
    · have hc : ¬ (x + d - d ≥ L) := by linarith
      have he : ¬ (x + d - d < 0) := by linarith
      simp only [ha, hb, hc, he, if_false]
      ring


/-- The particle list after `rand_p_mover_update`: one `modify` at index `p`. -/
theorem NVT.rand_p_mover_update_particles (L : K) (p : Nat) (delta gamma zeta : K)
    (s : NVT.state K) :
    (NVT.rand_p_mover_update L p delta gamma zeta s).particles
      = s.particles.modify (fun q => ⟨fun j => wrap1 L (q.x j +
          (if j = 0 then delta else if j = 1 then gamma else zeta))⟩) p := by
  unfold NVT.rand_p_mover_update NVT.positionchecker
  simp only [List.modify_modify_eq]
  congr 1
  funext q
  apply particle.ext_x
  intro j
  simp only [Function.comp, NVT.positionchecker_loop_x, particle.setx3_x]
  fin_cases j <;> simp

/-- The particle list after `rand_p_unmover`: one `modify` at index `move.p`. -/
theorem NVT.rand_p_unmover_particles (L : K) (s : NVT.state K) :
    (NVT.rand_p_unmover L s).particles
      = s.particles.modify (fun q => ⟨fun j => wrap1 L (q.x j -
          (if j = 0 then s.move.delta else if j = 1 then s.move.gamma else s.move.zeta))⟩)
          s.move.p := by
  unfold NVT.rand_p_unmover NVT.positionchecker
  simp only [List.modify_modify_eq]
  congr 1
  funext q
  apply particle.ext_x
  intro j
  simp only [Function.comp, NVT.positionchecker_loop_x, particle.setx3_x]
  fin_cases j <;> simp

/-- An offset `(u - 0.5) * L` drawn with `0 ≤ u < 1` lies in `[-L/2, L/2)`. -/
theorem offset_mem (L u : K) (hL : 0 < L) (h0 : 0 ≤ u) (h1 : u < 1) :
    -(L / 2) ≤ (u - 0.5) * L ∧ (u - 0.5) * L < L / 2 := by
  have e : (u - 0.5) * L = u * L - L / 2 := by norm_num; ring
  rw [e]
  constructor
  · nlinarith [mul_nonneg h0 hL.le]
  · nlinarith [mul_lt_mul_of_pos_right h1 hL]

/-- The update of `rand_p_mover` followed by `rand_p_unmover` restores an array
whose coordinates all lie in `[0, L)`. -/
theorem NVT.unmover_mover_particles (L : K) (s : NVT.state K) (p : Nat) (delta gamma zeta : K)
    (hbox : ∀ q ∈ s.particles, q.inBox L) :
    (NVT.rand_p_unmover L (NVT.rand_p_mover_update L p delta gamma zeta s)).particles
      = s.particles := by
  rw [NVT.rand_p_unmover_particles, NVT.rand_p_mover_update_particles]
  have hmove : (NVT.rand_p_mover_update L p delta gamma zeta s).move
      = ⟨p, delta, gamma, zeta⟩ := rfl
  rw [hmove]
  simp only [List.modify_modify_eq]
  apply List.modify_eq_of_fix
  intro q hq
  apply particle.ext_x
  intro j
  simp only [Function.comp]
  exact wrap1_undo L (q.x j) _ (hbox q hq j).1 (hbox q hq j).2

/-- After the update of `rand_p_mover` with offsets in `[-L/2, L/2)`, an array
whose coordinates all lie in `[0, L)` still has all its coordinates in `[0, L)`. -/
theorem NVT.mover_inBox (L : K) (s : NVT.state K) (p : Nat) (delta gamma zeta : K)
    (hbox : ∀ q ∈ s.particles, q.inBox L)
    (hdelta : -(L / 2) ≤ delta ∧ delta < L / 2)
    (hgamma : -(L / 2) ≤ gamma ∧ gamma < L / 2)
    (hzeta : -(L / 2) ≤ zeta ∧ zeta < L / 2) :
    ∀ q ∈ (NVT.rand_p_mover_update L p delta gamma zeta s).particles, q.inBox L := by
  rw [NVT.rand_p_mover_update_particles]
  apply List.forall_mem_modify _ _ _ _ hbox
  intro q hq j
  have h0 := (hbox q hq j).1
  have h1 := (hbox q hq j).2
  have hoff : -(L / 2) ≤ (if j = 0 then delta else if j = 1 then gamma else zeta) ∧
      (if j = 0 then delta else if j = 1 then gamma else zeta) < L / 2 := by
    split_ifs
    · exact hdelta
    · exact hgamma
    · exact hzeta
  apply wrap1_mem
  · linarith [hoff.1]
  · linarith [hoff.2]

end wrap

/-! ## Lemmas on the pair energy -/

section energy

variable {K : Type} [LinearOrderedField K]

theorem NVT.PEfinder_body_eq (M : libm K) (L : K) (ps : List (particle K)) (pe : K) (b c : Nat) :
    NVT.PEfinder_body M L ps pe b c = pe + pair_energy L (NVT.distfinder M L ps b c) := by
  unfold NVT.PEfinder_body pair_energy lj_spec
  have hL : L * 0.5 = L / 2 := by norm_num; ring
  simp only [hL]
  split_ifs
  · simp
  · congr 1
    generalize NVT.distfinder M L ps b c = r
    generalize (3.371914 : K) = s
    simp only [div_eq_mul_inv, one_mul, inv_pow]
    ring

theorem grand.pecalc_body_eq (M : libm K) (L : K) (ps : List (particle K)) (pe : K) (b c : Nat) :
    grand.pecalc_body M L ps pe b c = pe + pair_energy L (grand.distfinder M L ps b c) := by
  unfold grand.pecalc_body pair_energy lj_spec
  have hL : L * 0.5 = L / 2 := by norm_num; ring
  simp only [hL]
  split_ifs
  · simp
  · congr 1
    generalize grand.distfinder M L ps b c = r
    generalize (3.371914 : K) = s
    simp only [div_eq_mul_inv, one_mul, inv_pow]
    ring

theorem List.foldl_add_eq_sum {β : Type} (f : β → K) (l : List β) (init : K) :
    l.foldl (fun pe c => pe + f c) init = init + (l.map f).sum := by
  induction l generalizing init with
  | nil => simp
  | cons a l ih => simp only [List.foldl_cons, List.map_cons, List.sum_cons, ih]; ring

theorem NVT.PEfinder_eq_index_pair_sum (M : libm K) (L : K) (ps : List (particle K)) :
    NVT.PEfinder M L ps
      = index_pair_sum (fun b c => pair_energy L (NVT.distfinder M L ps b c)) ps.length := by
  unfold NVT.PEfinder index_pair_sum
  simp only [NVT.PEfinder_body_eq, List.foldl_add_eq_sum, zero_add]

theorem index_pair_sum_pred (t : Nat → Nat → K) (n : Nat) :
    ((List.range n).map
      (fun b => ((List.range' (b + 1) (n + 1 - (b + 1))).map (fun c => t b c)).sum)).sum
      = index_pair_sum t (n + 1) := by
  unfold index_pair_sum
  rw [List.range_succ, List.map_append, List.sum_append]
  simp

theorem grand.pecalc_eq_index_pair_sum (M : libm K) (L : K) (ps : List (particle K)) :
    grand.pecalc M L ps
      = index_pair_sum (fun b c => pair_energy L (grand.distfinder M L ps b c)) ps.length := by
  unfold grand.pecalc
  simp only [grand.pecalc_body_eq, List.foldl_add_eq_sum, zero_add]
  cases h : ps.length with
  | zero => simp [index_pair_sum]
  | succ n =>
    simp only [Nat.add_sub_cancel]
    exact index_pair_sum_pred _ n

theorem List.sum_map_range_eq_finset (g : Nat → K) (n : Nat) :
    ((List.range n).map g).sum = Finset.sum (Finset.range n) g := by
  induction n with
  | zero => simp
  | succ n ih =>
    rw [List.range_succ, List.map_append, List.sum_append, Finset.sum_range_succ, ih]
    simp

theorem List.sum_map_range'_eq_finset (g : Nat → K) (b n : Nat) :
    ((List.range' (b + 1) (n - (b + 1))).map g).sum
      = Finset.sum (Finset.range n) (fun c => if b < c then g c else 0) := by
  induction n with
  | zero => simp
  | succ n ih =>
    rw [Finset.sum_range_succ, ← ih]
    by_cases h : b < n
    · have h1 : n + 1 - (b + 1) = (n - (b + 1)) + 1 := by omega
      have h2 : b + 1 + (n - (b + 1)) = n := by omega
      rw [h1, List.range'_1_concat, List.map_append, List.sum_append, h2]
      simp [h]
    · have h1 : n + 1 - (b + 1) = 0 := by omega
      have h2 : n - (b + 1) = 0 := by omega
      rw [h1, h2]
      simp [h]

theorem index_pair_sum_eq_spec (dist : Nat → Nat → K) (L : K) (n : Nat) :
    index_pair_sum (fun b c => pair_energy L (dist b c)) n
      = total_energy_spec dist n (L / 2) 128.326802 3.371914 := by
  unfold index_pair_sum total_energy_spec
  rw [List.sum_map_range_eq_finset, Finset.sum_filter, Finset.sum_product]
  apply Finset.sum_congr rfl
  intro b _
  rw [List.sum_map_range'_eq_finset]
  apply Finset.sum_congr rfl
  intro c _
  unfold pair_energy
  by_cases h1 : b < c <;> by_cases h2 : dist b c < L / 2 <;> simp [h1, h2]

theorem NVT.distfinder_eq_dist (M : libm K) (L : K) (ps : List (particle K)) (a b : Nat) :
    NVT.distfinder M L ps a b = particle_dist M L (ps.getD a default) (ps.getD b default) := rfl

theorem grand.distfinder_eq_particle_dist (M : libm K) (L : K) (ps : List (particle K)) (a b : Nat) :
    grand.distfinder M L ps a b = particle_dist M L (ps.getD a default) (ps.getD b default) := rfl

theorem particle_dist_comm (M : libm K) (L : K) (a b : particle K) :
    particle_dist M L a b = particle_dist M L b a := by
  unfold particle_dist
  simp only [abs_sub_comm (a.x _) (b.x _)]

theorem List.map_getD_range {α : Type} (l : List α) (d : α) :
    (List.range l.length).map (fun i => l.getD i d) = l := by
  induction l with
  | nil => simp
  | cons a l ih =>
    rw [List.length_cons, List.range_succ_eq_map, List.map_cons, List.map_map]
    simp only [List.getD_cons_zero]
    congr 1

theorem index_pair_sum_eq_pair_sum {α : Type} (f : α → α → K) (d : α) (l : List α) :
    index_pair_sum (fun b c => f (l.getD b d) (l.getD c d)) l.length = pair_sum f l := by
  induction l with
  | nil => simp [index_pair_sum, pair_sum]
  | cons a l ih =>
    unfold index_pair_sum at ih ⊢
    rw [pair_sum, ← ih, List.length_cons, List.range_succ_eq_map, List.map_cons, List.sum_cons,
      List.map_map]
    congr 1
    · have h1 : List.range' (0 + 1) (l.length + 1 - (0 + 1))
          = (List.range l.length).map Nat.succ := by
        rw [List.range'_eq_map_range]
        simp [Nat.succ_eq_add_one, Nat.add_comm]
      rw [h1, List.map_map]
      conv_rhs => rw [← List.map_getD_range l d, List.map_map]
      rfl
    · congr 1
      apply List.map_congr_left
      intro b _
      simp only [Function.comp, Nat.succ_eq_add_one]
      have h2 : List.range' (b + 1 + 1) (l.length + 1 - (b + 1 + 1))
          = (List.range' (b + 1) (l.length - (b + 1))).map Nat.succ := by
        have h3 : l.length + 1 - (b + 1 + 1) = l.length - (b + 1) := by omega
        rw [h3, show b + 1 + 1 = 1 + (b + 1) by omega, ← List.map_add_range' 1]
        apply List.map_congr_left
        intro x _
        omega
      rw [h2, List.map_map]
      rfl

theorem pair_sum_perm {α : Type} (f : α → α → K) (hf : ∀ a b, f a b = f b a)
    {l1 l2 : List α} (h : l1.Perm l2) : pair_sum f l1 = pair_sum f l2 := by
  induction h with
  | nil => rfl
  | cons a h ih =>
    simp only [pair_sum, ih]
    rw [(h.map (f a)).sum_eq]
  | swap a b l =>
    simp only [pair_sum, List.map_cons, List.sum_cons, hf a b]
    ring
  | trans _ _ ih1 ih2 => exact ih1.trans ih2

theorem index_pair_sum_eq_zero (t : Nat → Nat → K) (N : Nat)
    (h : ∀ b c, b < c → c < N → t b c = 0) : index_pair_sum t N = 0 := by
  unfold index_pair_sum
  apply List.sum_eq_zero
  intro x hx
  simp only [List.mem_map, List.mem_range] at hx
  obtain ⟨b, _, rfl⟩ := hx
  apply List.sum_eq_zero
  intro y hy
  simp only [List.mem_map, List.mem_range'_1] at hy
  obtain ⟨c, ⟨hc1, hc2⟩, rfl⟩ := hy
  exact h b c (by omega) (by omega)

end energy

/-! ## Lemmas on a run of grand.c -/

section run_lemmas

variable {K : Type} [LinearOrderedField K]

theorem grand.main_body_eq [FloorRing K] (M : libm K) (L : K) (c : Int) (d : grand.draws K)
    (v : grand.main_vars K) (flag : Int) (s1 : grand.state K) (hm : v.m ≥ 0)
    (hch : grand.move_chooser L d v.s = some (flag, s1)) :
    ∃ w, grand.main_body M L c d v = some w ∧
      w.s = (if (grand.move_acceptor M L s1.particles v.cpe (grand.pecalc M L s1.particles)
          c flag d.guess).1 = true then s1 else grand.move_undoer flag s1) ∧
      w.cpe = (if (grand.move_acceptor M L s1.particles v.cpe (grand.pecalc M L s1.particles)
          c flag d.guess).1 = true then grand.pecalc M L s1.particles else v.cpe) ∧
      w.m = s1.particles.length := by
  unfold grand.main_body
  rw [if_pos hm, hch]
  simp only [Option.map_some']
  by_cases hacc : (grand.move_acceptor M L s1.particles v.cpe (grand.pecalc M L s1.particles)
      c flag d.guess).1 = true
  · simp only [hacc, if_true]
    exact ⟨_, rfl, rfl, rfl, rfl⟩
  · simp only [hacc, if_false]
    exact ⟨_, rfl, rfl, rfl, rfl⟩

end run_lemmas

theorem grand.thermal_log_le :
    Real.log (grand.h / Real.sqrt (2 * Real.pi * 39.948 * grand.k * grand.T)
      * (grand.h / Real.sqrt (2 * Real.pi * 39.948 * grand.k * grand.T))
      * (grand.h / Real.sqrt (2 * Real.pi * 39.948 * grand.k * grand.T))) ≤ -100 := by
  have hX : (1 : ℝ) ≤ 2 * Real.pi * 39.948 * grand.k * grand.T := by
    have := Real.pi_gt_three
    unfold grand.k grand.T
    nlinarith
  have hs : 1 ≤ Real.sqrt (2 * Real.pi * 39.948 * grand.k * grand.T) := by
    rw [show (1 : ℝ) = Real.sqrt 1 by simp]
    exact Real.sqrt_le_sqrt hX
  have hh : (0 : ℝ) < grand.h := by unfold grand.h; positivity
  set lam := grand.h / Real.sqrt (2 * Real.pi * 39.948 * grand.k * grand.T) with hlam
  have hlam0 : 0 < lam := div_pos hh (by linarith)
  have hlam1 : lam ≤ grand.h := div_le_self hh.le hs
  have hh1 : (grand.h : ℝ) ≤ 1 / 10 ^ 33 := by
    unfold grand.h
    rw [zpow_neg]
    norm_num
  have hcube : lam * lam * lam ≤ 1 / 10 ^ 99 := by
    have h1 : lam ≤ 1 / 10 ^ 33 := hlam1.trans hh1
    calc lam * lam * lam ≤ (1 / 10 ^ 33) * (1 / 10 ^ 33) * (1 / 10 ^ 33) := by
          apply mul_le_mul (mul_le_mul h1 h1 hlam0.le (by positivity)) h1 hlam0.le (by positivity)
      _ = 1 / 10 ^ 99 := by norm_num
  have hexp : Real.exp 100 ≤ 10 ^ 99 := by
    have h3 : Real.exp 1 ≤ 3 := by
      have := Real.exp_one_lt_d9
      linarith
    have : Real.exp 100 = Real.exp 1 ^ 100 := by
      rw [← Real.exp_nat_mul]; norm_num
    rw [this]
    calc Real.exp 1 ^ 100 ≤ 3 ^ 100 := pow_le_pow_left₀ (Real.exp_pos 1).le h3 100
      _ ≤ 10 ^ 99 := by norm_num
  have hle : lam * lam * lam ≤ Real.exp (-100) := by
    rw [Real.exp_neg]
    calc lam * lam * lam ≤ 1 / 10 ^ 99 := hcube
      _ ≤ (Real.exp 100)⁻¹ := by
        rw [one_div]
        exact inv_anti₀ (Real.exp_pos 100) hexp
  calc Real.log (lam * lam * lam) ≤ Real.log (Real.exp (-100)) :=
        Real.log_le_log (by positivity) hle
    _ = -100 := Real.log_exp _

theorem grand.deletion_rejected (ps : List (particle ℝ)) (hlen : ps.length = 1)
    (cpe npe : ℝ) (hd : 0 ≤ npe - cpe) (c : Int) (guess : ℝ) :
    (grand.move_acceptor ⟨Real.sqrt, Real.exp, Real.log, Real.pi⟩ 22 ps cpe npe c 2 guess).1
      = false := by
  have hl := grand.thermal_log_le
  set ell := Real.log (grand.h / Real.sqrt (2 * Real.pi * 39.948 * grand.k * grand.T)
      * (grand.h / Real.sqrt (2 * Real.pi * 39.948 * grand.k * grand.T))
      * (grand.h / Real.sqrt (2 * Real.pi * 39.948 * grand.k * grand.T))) with hell
  have hexp33 : (34 : ℝ) ≤ Real.exp 33 := by
    have := Real.add_one_le_exp (33 : ℝ)
    linarith
  have hexp99 : (39304 : ℝ) ≤ Real.exp 99 := by
    have h3 : Real.exp 99 = Real.exp 33 ^ 3 := by
      rw [← Real.exp_nat_mul]; norm_num
    rw [h3]
    calc (39304 : ℝ) = 34 ^ 3 := by norm_num
      _ ≤ Real.exp 33 ^ 3 := pow_le_pow_left₀ (by norm_num) hexp33 3
  have hone : -(1 / (grand.k * grand.T) * (npe - cpe))
      - 1 / (grand.k * grand.T) * (grand.k * grand.T * ell * (((1 : ℕ) : ℝ) / (22 * 22 * 22))
        - grand.k * grand.T * ell) ≤ -99 := by
    unfold grand.k grand.T
    have e : -(1 / ((1 : ℝ) * 101) * (npe - cpe))
        - 1 / ((1 : ℝ) * 101) * (1 * 101 * ell * (((1 : ℕ) : ℝ) / (22 * 22 * 22)) - 1 * 101 * ell)
        = -((npe - cpe) / 101) + ell * (10647 / 10648) := by
      push_cast
      ring
    rw [e]
    have : 0 ≤ (npe - cpe) / 101 := div_nonneg hd (by norm_num)
    nlinarith
  have hsmall : Real.exp (-(1 / (grand.k * grand.T) * (npe - cpe))
      - 1 / (grand.k * grand.T) * (grand.k * grand.T * ell * (((1 : ℕ) : ℝ) / (22 * 22 * 22))
        - grand.k * grand.T * ell)) ≤ 1 / 39304 := by
    calc _ ≤ Real.exp (-99) := Real.exp_le_exp.mpr hone
      _ = (Real.exp 99)⁻¹ := Real.exp_neg 99
      _ ≤ 1 / 39304 := by
        rw [one_div]
        exact inv_anti₀ (by norm_num) hexp99
  have hcond : ¬ (((1 : ℕ) : ℝ) / (22 * 22 * 22 * Real.exp (-(1 / (grand.k * grand.T) * (npe - cpe))
      - 1 / (grand.k * grand.T) * (grand.k * grand.T * ell * (((1 : ℕ) : ℝ) / (22 * 22 * 22))
        - grand.k * grand.T * ell))) < 1) := by
    rw [not_lt]
    have hpos := Real.exp_pos (-(1 / (grand.k * grand.T) * (npe - cpe))
      - 1 / (grand.k * grand.T) * (grand.k * grand.T * ell * (((1 : ℕ) : ℝ) / (22 * 22 * 22))
        - grand.k * grand.T * ell))
    rw [le_div_iff₀ (by positivity)]
    push_cast
    nlinarith
  unfold grand.move_acceptor
  simp only [hlen]
  rw [if_neg (not_lt.mpr hd), if_neg (by decide), if_neg (by decide)]
  simp only [if_true]
  rw [← hell, if_neg hcond]

theorem grand.pecalc_two_lt_zero :
    grand.pecalc ⟨Real.sqrt, Real.exp, Real.log, Real.pi⟩ (22 : ℝ)
      [particle.mk3 0 0 0, particle.mk3 11 0 0] < 0 := by
  have hs : Real.sqrt 121 = 11 := by
    rw [show (121 : ℝ) = 11 * 11 by norm_num]
    exact Real.sqrt_mul_self (by norm_num)
  have hd : grand.distfinder ⟨Real.sqrt, Real.exp, Real.log, Real.pi⟩ (22 : ℝ)
      [particle.mk3 0 0 0, particle.mk3 11 0 0] 0 1 = 11 := by
    norm_num [grand.distfinder, particle.mk3_x0, particle.mk3_x1, particle.mk3_x2, hs]
  rw [grand.pecalc_eq_index_pair_sum]
  simp only [index_pair_sum, List.length_cons, List.length_nil]
  norm_num [List.range, List.range.loop, List.range', hd, pair_energy, lj_spec]

theorem grand.move_acceptor_of_neg {K : Type} [LinearOrderedField K] (M : libm K) (L : K)
    (particles : List (particle K)) (cpe npe : K) (c flag : Int) (guess : K)
    (h : npe - cpe < 0) :
    (grand.move_acceptor M L particles cpe npe c flag guess).1 = true := by
  simp only [grand.move_acceptor, h, if_true]

theorem grand.move_acceptor_first (L : ℝ) (particles : List (particle ℝ)) (c : Int) :
    (grand.move_acceptor ⟨Real.sqrt, Real.exp, Real.log, Real.pi⟩ L particles 0 0 c 0 0).1
      = true := by
  simp [grand.move_acceptor]

theorem grand.move_undoer_two_particles {K : Type} [LinearOrderedField K] (s : grand.state K) :
    (grand.move_undoer 2 s).particles
      = s.particles ++ [particle.mk3 s.creator.phi s.creator.gamma s.creator.delta] := by
  simp [grand.move_undoer]

/-! ## Theorems on NVT.c -/

section nvt_theorems

variable {K : Type} [LinearOrderedField K]

/-- Undo in exact arithmetic: if every coordinate of every particle lies in
`[0, L)`, then for every index `p` and all offsets the update of `rand_p_mover`
followed by `rand_p_unmover` leaves the particle array as it was; the same holds
for `rand_p_mover` with any values drawn.  This is a fact of exact arithmetic only:
the additions of the source round to a double, and there `(x + d) - d` need not be
`x` (with `L = 200`, `x = 0.1` and `d = 99.9` the doubles give
`0.09999999999999432`). -/
theorem NVT.undo_exact_over_field (L : K) (s : NVT.state K) (p : Nat) (delta gamma zeta : K)
    (hbox : ∀ q ∈ s.particles, q.inBox L) :
    (NVT.rand_p_unmover L (NVT.rand_p_mover_update L p delta gamma zeta s)).particles
      = s.particles ∧
    (∀ (r : Nat) (u1 u2 u3 : K),
      (NVT.rand_p_unmover L (NVT.rand_p_mover L r u1 u2 u3 s)).particles = s.particles) :=
  ⟨NVT.unmover_mover_particles L s p delta gamma zeta hbox,
    fun _ _ _ _ => NVT.unmover_mover_particles L s _ _ _ _ hbox⟩

/-- Wrap invariant in exact arithmetic: if every coordinate of every particle lies
in `[0, L)`, then for every index `p` and all offsets in `[-L/2, L/2)` every
coordinate of every particle lies in `[0, L)` after the update of `rand_p_mover`,
and again after `rand_p_unmover`; one pass of `positionchecker` sends a particle
whose coordinates lie in `[-L, 2L)` to one whose coordinates lie in `[0, L)`; and
the first part holds for `rand_p_mover` with any `random()` value and any three
`uniformrand()` values in `[0, 1)`.  This is a fact of exact arithmetic only: in
doubles a tiny negative coordinate plus `L` rounds to `L` itself (`-2^-70 + 200`
is `200.0`), which is not in `[0, L)`. -/
theorem NVT.wrap_invariant_over_field (L : K) (s : NVT.state K) (p : Nat) (delta gamma zeta : K)
    (hbox : ∀ q ∈ s.particles, q.inBox L)
    (hdelta : -(L / 2) ≤ delta ∧ delta < L / 2)
    (hgamma : -(L / 2) ≤ gamma ∧ gamma < L / 2)
    (hzeta : -(L / 2) ≤ zeta ∧ zeta < L / 2) :
    (∀ q ∈ (NVT.rand_p_mover_update L p delta gamma zeta s).particles, q.inBox L) ∧
    (∀ q ∈ (NVT.rand_p_unmover L (NVT.rand_p_mover_update L p delta gamma zeta s)).particles,
      q.inBox L) ∧
    (∀ (ps : List (particle K)) (id_a : Nat), id_a < ps.length →
      (∀ j, -L ≤ (ps.getD id_a default).x j ∧ (ps.getD id_a default).x j < 2 * L) →
      ((NVT.positionchecker L id_a ps).getD id_a default).inBox L) ∧
    (∀ (r : Nat) (u1 u2 u3 : K), 0 ≤ u1 ∧ u1 < 1 → 0 ≤ u2 ∧ u2 < 1 → 0 ≤ u3 ∧ u3 < 1 →
      ∀ q ∈ (NVT.rand_p_mover L r u1 u2 u3 s).particles, q.inBox L) := by
  refine ⟨NVT.mover_inBox L s p delta gamma zeta hbox hdelta hgamma hzeta, ?_, ?_, ?_⟩
  · rw [NVT.unmover_mover_particles L s p delta gamma zeta hbox]
    exact hbox
  · intro ps id_a hid hq j
    unfold NVT.positionchecker
    rw [List.getD_modify_self _ _ _ _ hid, NVT.positionchecker_loop_x]
    exact wrap1_mem L _ (hq j).1 (hq j).2
  · intro r u1 u2 u3 h1 h2 h3 q hq
    have hne : s.particles ≠ [] := by
      intro hnil
      simp [NVT.rand_p_mover, NVT.rand_p_mover_update, NVT.positionchecker, hnil] at hq
    obtain ⟨q0, hq0⟩ := List.exists_mem_of_ne_nil _ hne
    have hL : 0 < L := lt_of_le_of_lt (hbox q0 hq0 0).1 (hbox q0 hq0 0).2
    exact NVT.mover_inBox L s _ _ _ _ hbox (offset_mem L u1 hL h1.1 h1.2)
      (offset_mem L u2 hL h2.1 h2.2) (offset_mem L u3 hL h3.1 h3.2) q hq

end nvt_theorems

/-! ## Theorems on the energy functions -/

section energy_theorems

variable {K : Type} [LinearOrderedField K]

/-- C8. Reference definition of the total energy: for every particle list, `PEfinder`
and `pecalc` return the sum, over the index pairs `b < c` whose `distfinder`
distance is not less than the cutoff `L/2`, of `4ε·(σ¹²/r¹² − σ⁶/r⁶)` with
`ε = 128.326802` and `σ = 3.371914`; the empty and the one-particle system have
energy `0`. -/
theorem C8_total_energy_reference (M : libm K) (L : K) (ps : List (particle K)) :
    NVT.PEfinder M L ps
      = total_energy_spec (NVT.distfinder M L ps) ps.length (L / 2) 128.326802 3.371914 ∧
    grand.pecalc M L ps
      = total_energy_spec (grand.distfinder M L ps) ps.length (L / 2) 128.326802 3.371914 ∧
    NVT.PEfinder M L [] = 0 ∧ grand.pecalc M L [] = 0 ∧
    (∀ q : particle K, NVT.PEfinder M L [q] = 0 ∧ grand.pecalc M L [q] = 0) := by
  refine ⟨?_, ?_, ?_, ?_, ?_⟩
  · rw [NVT.PEfinder_eq_index_pair_sum, index_pair_sum_eq_spec]
  · rw [grand.pecalc_eq_index_pair_sum, index_pair_sum_eq_spec]
  · simp [NVT.PEfinder]
  · simp [grand.pecalc]
  · intro q
    constructor
    · simp [NVT.PEfinder]
    · simp [grand.pecalc]

/-- C9. Energy symmetry: `PEfinder` and `pecalc` take the same value on a particle
list and on every permutation of it, and `distfinder(a, b) = distfinder(b, a)`. -/
theorem C9_energy_symmetry (M : libm K) (L : K) (ps qs : List (particle K))
    (h : ps.Perm qs) :
    NVT.PEfinder M L ps = NVT.PEfinder M L qs ∧
    grand.pecalc M L ps = grand.pecalc M L qs ∧
    (∀ (l : List (particle K)) (a b : Nat),
      NVT.distfinder M L l a b = NVT.distfinder M L l b a ∧
      grand.distfinder M L l a b = grand.distfinder M L l b a) := by
  have hsym : ∀ a b : particle K,
      pair_energy L (particle_dist M L a b) = pair_energy L (particle_dist M L b a) := by
    intro a b
    rw [particle_dist_comm]
  refine ⟨?_, ?_, ?_⟩
  · rw [NVT.PEfinder_eq_index_pair_sum, NVT.PEfinder_eq_index_pair_sum]
    simp only [NVT.distfinder_eq_dist]
    rw [index_pair_sum_eq_pair_sum (fun a b => pair_energy L (particle_dist M L a b)) default ps,
      index_pair_sum_eq_pair_sum (fun a b => pair_energy L (particle_dist M L a b)) default qs]
    exact pair_sum_perm _ hsym h
  · rw [grand.pecalc_eq_index_pair_sum, grand.pecalc_eq_index_pair_sum]
    simp only [grand.distfinder_eq_particle_dist]
    rw [index_pair_sum_eq_pair_sum (fun a b => pair_energy L (particle_dist M L a b)) default ps,
      index_pair_sum_eq_pair_sum (fun a b => pair_energy L (particle_dist M L a b)) default qs]
    exact pair_sum_perm _ hsym h
  · intro l a b
    simp only [NVT.distfinder_eq_dist, grand.distfinder_eq_particle_dist]
    exact ⟨particle_dist_comm M L _ _, particle_dist_comm M L _ _⟩

/-- C10. Cutoff scenario: when every pair of particles has `distfinder` distance
strictly less than `L/2`, the total energy is `0`. -/
theorem C10_cutoff_scenario (M : libm K) (L : K) (ps : List (particle K))
    (h : ∀ b c, b < c → c < ps.length → NVT.distfinder M L ps b c < L / 2) :
    NVT.PEfinder M L ps = 0 ∧ grand.pecalc M L ps = 0 := by
  have h0 : index_pair_sum (fun b c => pair_energy L (NVT.distfinder M L ps b c)) ps.length
      = 0 := by
    apply index_pair_sum_eq_zero
    intro b c hbc hc
    simp only [pair_energy, h b c hbc hc, if_true]
  constructor
  · rw [NVT.PEfinder_eq_index_pair_sum, h0]
  · rw [grand.pecalc_eq_index_pair_sum]
    exact h0

end energy_theorems

/-- Witness of C9 over the reals: the two orders of a two-particle list at distance
`150` in a box of side `200`. -/
theorem C9_energy_symmetry_witness :
    NVT.PEfinder ⟨Real.sqrt, Real.exp, Real.log, Real.pi⟩ (200 : ℝ)
        [particle.mk3 0 0 0, particle.mk3 100 100 50]
      = NVT.PEfinder ⟨Real.sqrt, Real.exp, Real.log, Real.pi⟩ (200 : ℝ)
        [particle.mk3 100 100 50, particle.mk3 0 0 0] :=
  (C9_energy_symmetry ⟨Real.sqrt, Real.exp, Real.log, Real.pi⟩ (200 : ℝ)
    [particle.mk3 0 0 0, particle.mk3 100 100 50] [particle.mk3 100 100 50, particle.mk3 0 0 0]
    (List.Perm.swap _ _ _)).1

/-- Witness of C10, the scenario of the specification: the particles `(0,0,0)` and
`(1,0,0)` in a box of side `200` are at distance `1 < 100`, and the energy is `0`. -/
theorem C10_cutoff_scenario_witness :
    NVT.distfinder ⟨Real.sqrt, Real.exp, Real.log, Real.pi⟩ (200 : ℝ)
        [particle.mk3 0 0 0, particle.mk3 1 0 0] 0 1 = 1 ∧
    NVT.PEfinder ⟨Real.sqrt, Real.exp, Real.log, Real.pi⟩ (200 : ℝ)
        [particle.mk3 0 0 0, particle.mk3 1 0 0] = 0 := by
  have hd : NVT.distfinder ⟨Real.sqrt, Real.exp, Real.log, Real.pi⟩ (200 : ℝ)
      [particle.mk3 0 0 0, particle.mk3 1 0 0] 0 1 = 1 := by
    norm_num [NVT.distfinder, particle.mk3_x0, particle.mk3_x1, particle.mk3_x2]
  refine ⟨hd, (C10_cutoff_scenario ⟨Real.sqrt, Real.exp, Real.log, Real.pi⟩ (200 : ℝ)
    [particle.mk3 0 0 0, particle.mk3 1 0 0] ?_).1⟩
  intro b c hbc hc
  simp only [List.length_cons, List.length_nil] at hc
  have hb : b = 0 := by omega
  have hc1 : c = 1 := by omega
  subst hb hc1
  rw [hd]
  norm_num

/-! ## Theorems on the acceptance tests -/

section acceptance_theorems

variable {K : Type} [LinearOrderedField K]

/-- C7. Downhill moves are always accepted: when `npe - cpe < 0`, `E_checker`
returns `true`, and `move_acceptor` returns `true` for every flag, every particle
list and every value of the random draw. -/
theorem C7_downhill_accepted (M : libm K) (cpe npe : K) (h : npe - cpe < 0) :
    (∀ (c : Int) (guess : K), (NVT.E_checker M cpe npe c guess).1 = true) ∧
    (∀ (L : K) (particles : List (particle K)) (c flag : Int) (guess : K),
      (grand.move_acceptor M L particles cpe npe c flag guess).1 = true) := by
  constructor
  · intro c guess
    simp only [NVT.E_checker, h, if_true]
  · intro L particles c flag guess
    simp only [grand.move_acceptor, h, if_true]

end acceptance_theorems

/-- Witness of C7 over the reals, with `cpe = 0` and `npe = -1`. -/
theorem C7_downhill_accepted_witness :
    (∀ (c : Int) (guess : ℝ),
      (NVT.E_checker ⟨Real.sqrt, Real.exp, Real.log, Real.pi⟩ 0 (-1) c guess).1 = true) ∧
    (∀ (L : ℝ) (particles : List (particle ℝ)) (c flag : Int) (guess : ℝ),
      (grand.move_acceptor ⟨Real.sqrt, Real.exp, Real.log, Real.pi⟩ L particles 0 (-1) c flag
        guess).1 = true) :=
  C7_downhill_accepted ⟨Real.sqrt, Real.exp, Real.log, Real.pi⟩ 0 (-1) (by norm_num)

/-! ## Theorems on the moves of grand.c -/

section grand_theorems

variable {K : Type} [LinearOrderedField K]

/-- C3. Insertion undo: for every state and every inserted position, `thecreator`
followed by `move_undoer(1)` leaves the particle list exactly as it was before the
insertion. -/
theorem C3_gcmc_insertion_undo (L : K) (u0 u1 u2 : K) (s : grand.state K) :
    (grand.move_undoer 1 (grand.thecreator L u0 u1 u2 s)).particles = s.particles := by
  simp [grand.move_undoer, grand.thecreator, grand.thedestroyer,
    List.eraseIdx_append_of_length_le]

end grand_theorems

/-- C2, a failing run of `main` over the reals with `L = 22`.  Step 1 inserts
`(0,0,0)` and step 2 inserts `(11,0,0)`; both are accepted.  Step 3 deletes
particle 0; the energy rises, the deletion test fails, and `move_undoer(2)` pushes
the particle of the record `creator`: the list is `[(11,0,0), (11,0,0)]`, which is
not a permutation of the list `[(0,0,0), (11,0,0)]` before the step. -/
theorem C2_deletion_undo_failing_input :
    ∃ v2 v3 : grand.main_vars ℝ,
      (grand.main_body ⟨Real.sqrt, Real.exp, Real.log, Real.pi⟩ (22 : ℝ) 1
          ⟨0, 0, [], 0, 0, 0, 0⟩
          (grand.main_init ⟨Real.sqrt, Real.exp, Real.log, Real.pi⟩ 22)).bind
        (grand.main_body ⟨Real.sqrt, Real.exp, Real.log, Real.pi⟩ (22 : ℝ) 2
          ⟨0, 9 / 10, [], 1 / 2, 0, 0, 0⟩) = some v2 ∧
      v2.s.particles = [particle.mk3 0 0 0, particle.mk3 11 0 0] ∧
      grand.main_body ⟨Real.sqrt, Real.exp, Real.log, Real.pi⟩ (22 : ℝ) 3
          ⟨0, 1 / 2, [], 0, 0, 0, 0⟩ v2 = some v3 ∧
      v3.s.particles = [particle.mk3 11 0 0, particle.mk3 11 0 0] ∧
      ¬ List.Perm [particle.mk3 (11 : ℝ) 0 0, particle.mk3 11 0 0]
          [particle.mk3 0 0 0, particle.mk3 11 0 0] := by
  -- step 1: forced insertion of (0,0,0), accepted
  obtain ⟨v1, h1, hs1, hc1, hm1⟩ := grand.main_body_eq
    ⟨Real.sqrt, Real.exp, Real.log, Real.pi⟩ (22 : ℝ) 1 ⟨0, 0, [], 0, 0, 0, 0⟩
    (grand.main_init ⟨Real.sqrt, Real.exp, Real.log, Real.pi⟩ 22) 0
    (grand.thecreator 22 0 0 0 grand.state.init)
    (by simp [grand.main_init, grand.state.init])
    (by simp [grand.move_chooser, grand.main_init, grand.state.init])
  have hp1 : (grand.thecreator (22 : ℝ) 0 0 0 grand.state.init).particles
      = [particle.mk3 0 0 0] := by
    simp [grand.thecreator, grand.state.init]
  have hcpe0 : (grand.main_init ⟨Real.sqrt, Real.exp, Real.log, Real.pi⟩ (22 : ℝ)).cpe = 0 := by
    simp [grand.main_init, grand.state.init, grand.pecalc]
  have hpe1 : ∀ q : particle ℝ,
      grand.pecalc ⟨Real.sqrt, Real.exp, Real.log, Real.pi⟩ (22 : ℝ) [q] = 0 := by
    intro q; simp [grand.pecalc]
  rw [hp1, hcpe0, hpe1, grand.move_acceptor_first, if_pos rfl] at hs1
  rw [hp1, hcpe0, hpe1, grand.move_acceptor_first, if_pos rfl] at hc1
  rw [hp1] at hm1
  -- step 2: insertion of (11,0,0), accepted because the energy decreases
  have hp2 : (grand.thecreator (22 : ℝ) (1 / 2) 0 0 v1.s).particles
      = [particle.mk3 0 0 0, particle.mk3 11 0 0] := by
    rw [hs1]
    norm_num [grand.thecreator, grand.state.init, particle.mk3_inj]
  obtain ⟨v2, h2, hs2, hc2, hm2⟩ := grand.main_body_eq
    ⟨Real.sqrt, Real.exp, Real.log, Real.pi⟩ (22 : ℝ) 2 ⟨0, 9 / 10, [], 1 / 2, 0, 0, 0⟩
    v1 1 (grand.thecreator 22 (1 / 2) 0 0 v1.s)
    (by rw [hm1]; simp)
    (by
      have hlen : v1.s.particles.length = 1 := by rw [hs1, hp1]; rfl
      norm_num [grand.move_chooser, hlen])
  have hacc2 : (grand.move_acceptor ⟨Real.sqrt, Real.exp, Real.log, Real.pi⟩ (22 : ℝ)
      [particle.mk3 0 0 0, particle.mk3 11 0 0] 0
      (grand.pecalc ⟨Real.sqrt, Real.exp, Real.log, Real.pi⟩ (22 : ℝ)
        [particle.mk3 0 0 0, particle.mk3 11 0 0]) 2 1 0).1 = true :=
    grand.move_acceptor_of_neg _ _ _ _ _ _ _ _ (by
      have := grand.pecalc_two_lt_zero
      linarith)
  rw [hp2, hc1, hacc2, if_pos rfl] at hs2
  rw [hp2, hc1, hacc2, if_pos rfl] at hc2
  rw [hp2] at hm2
  -- step 3: deletion of particle 0, rejected, undone from the record creator
  have hlen2 : v2.s.particles.length = 2 := by rw [hs2, hp2]; rfl
  have hp3 : (grand.thedestroyer 0 v2.s).particles = [particle.mk3 11 0 0] := by
    show v2.s.particles.eraseIdx 0 = _
    rw [hs2, hp2]
    rfl
  obtain ⟨v3, h3, hs3, _, _⟩ := grand.main_body_eq
    ⟨Real.sqrt, Real.exp, Real.log, Real.pi⟩ (22 : ℝ) 3 ⟨0, 1 / 2, [], 0, 0, 0, 0⟩
    v2 2 (grand.thedestroyer 0 v2.s)
    (by rw [hm2]; simp)
    (by norm_num [grand.move_chooser, hlen2])
  have hacc3 : (grand.move_acceptor ⟨Real.sqrt, Real.exp, Real.log, Real.pi⟩ (22 : ℝ)
      [particle.mk3 11 0 0]
      (grand.pecalc ⟨Real.sqrt, Real.exp, Real.log, Real.pi⟩ (22 : ℝ)
        [particle.mk3 0 0 0, particle.mk3 11 0 0]) 0 3 2 0).1 = false :=
    grand.deletion_rejected [particle.mk3 11 0 0] rfl _ _ (by
      have := grand.pecalc_two_lt_zero
      linarith) _ _
  rw [hp3, hc2, hpe1, hacc3] at hs3
  simp only [Bool.false_eq_true, if_false] at hs3
  refine ⟨v2, v3, ?_, ?_, h3, ?_, ?_⟩
  · rw [h1]; exact h2
  · rw [hs2, hp2]
  · rw [hs3]
    have hcre : v2.s.creator = ⟨1, 11, 0, 0⟩ := by
      rw [hs2, hs1]
      norm_num [grand.thecreator, grand.state.init, particle.mk3_x0, particle.mk3_x1,
        particle.mk3_x2]
    rw [grand.move_undoer_two_particles, hp3]
    show [particle.mk3 (11 : ℝ) 0 0] ++ [particle.mk3 v2.s.creator.phi v2.s.creator.gamma
      v2.s.creator.delta] = _
    rw [hcre]
    rfl
  · intro h
    have hmem := (h.mem_iff (a := particle.mk3 0 0 0)).2 (List.mem_cons_self _ _)
    simp [particle.mk3_inj] at hmem

/-- C4, the code at a failing input.  With `L = 22` and the particle `(20,5,5)`, the
first draws give the offsets `(5.5, 0, 0)`: the first coordinate `25.5` is wrapped
to `3.5`, `positionchecker` returns `false`, and `particleunmover` leaves `(-2,5,5)`.
The second draws give the same offsets, `positionchecker` returns `true` on
`(3.5,5,5)` and `particlemover` returns.  Then `move_undoer(0)` leaves the particle
at `(-2,5,5)`, not at `(20,5,5)`. -/
theorem C4_displacement_undo_failing_input :
    (grand.particlemover (22 : ℚ) 0 [(3 / 4, 1 / 2, 1 / 2), (3 / 4, 1 / 2, 1 / 2)]
        ⟨[particle.mk3 20 5 5], ⟨0, 0, 0, 0⟩, ⟨0, 20, 5, 5⟩, ⟨0, 0, 0, 0⟩⟩).map
      (fun s => s.particles) = some [particle.mk3 (7 / 2) 5 5] ∧
    (grand.particlemover (22 : ℚ) 0 [(3 / 4, 1 / 2, 1 / 2), (3 / 4, 1 / 2, 1 / 2)]
        ⟨[particle.mk3 20 5 5], ⟨0, 0, 0, 0⟩, ⟨0, 20, 5, 5⟩, ⟨0, 0, 0, 0⟩⟩).map
      (fun s => (grand.move_undoer 0 s).particles) = some [particle.mk3 (-2) 5 5] ∧
    particle.mk3 (-2 : ℚ) 5 5 ≠ particle.mk3 20 5 5 := by
  refine ⟨?_, ?_, ?_⟩
  · norm_num [grand.particlemover, grand.positionchecker, grand.positionchecker_loop,
      grand.particleunmover, particle.mk3_x0, particle.mk3_x1, particle.mk3_x2,
      particle.mk3_setx0, particle.mk3_setx1, particle.mk3_setx2, particle.mk3_inj]
  · norm_num [grand.move_undoer, grand.particlemover, grand.positionchecker,
      grand.positionchecker_loop, grand.particleunmover, particle.mk3_x0, particle.mk3_x1,
      particle.mk3_x2, particle.mk3_setx0, particle.mk3_setx1, particle.mk3_setx2,
      particle.mk3_inj]
  · norm_num [particle.mk3_inj]

/-- C6, the code at a failing input, over the reals with `L = 22`.  Step 1 from the
initial state inserts `(20,5,5)` and is accepted.  Step 2 is a displacement whose
first attempt leaves the box and is retried; with the draw `guess = 1` the move is
rejected, and after `move_undoer` the only particle is `(-2,5,5)`, whose first
coordinate is not in `[0, 22)`. -/
theorem C6_gcmc_wrap_failing_input :
    ((grand.main_body ⟨Real.sqrt, Real.exp, Real.log, Real.pi⟩ (22 : ℝ) 1
        ⟨0, 0, [], 10 / 11, 5 / 22, 5 / 22, 0⟩
        (grand.main_init ⟨Real.sqrt, Real.exp, Real.log, Real.pi⟩ 22)).map
      (fun v => v.s.particles) = some [particle.mk3 20 5 5]) ∧
    (((grand.main_body ⟨Real.sqrt, Real.exp, Real.log, Real.pi⟩ (22 : ℝ) 1
        ⟨0, 0, [], 10 / 11, 5 / 22, 5 / 22, 0⟩
        (grand.main_init ⟨Real.sqrt, Real.exp, Real.log, Real.pi⟩ 22)).bind
      (grand.main_body ⟨Real.sqrt, Real.exp, Real.log, Real.pi⟩ (22 : ℝ) 2
        ⟨0, 0, [(3 / 4, 1 / 2, 1 / 2), (3 / 4, 1 / 2, 1 / 2)], 0, 0, 0, 1⟩)).map
      (fun v => v.s.particles) = some [particle.mk3 (-2) 5 5]) ∧
    ¬ (particle.mk3 (-2 : ℝ) 5 5).inBox 22 := by
  refine ⟨?_, ?_, ?_⟩
  · norm_num [grand.main_body, grand.main_init, grand.state.init, grand.move_chooser,
      grand.thecreator, grand.pecalc, grand.move_acceptor, particle.mk3_inj]
  · norm_num [grand.main_body, grand.main_init, grand.state.init, grand.move_chooser,
      grand.thecreator, grand.pecalc, grand.move_acceptor, grand.move_undoer,
      grand.particlemover, grand.positionchecker, grand.positionchecker_loop,
      grand.particleunmover, particle.mk3_x0, particle.mk3_x1, particle.mk3_x2,
      particle.mk3_setx0, particle.mk3_setx1, particle.mk3_setx2, particle.mk3_inj]
  · intro h
    have h0 := (h 0).1
    rw [particle.mk3_x0] at h0
    norm_num at h0

/-! ## Lemmas on the acceptance tests -/

section acceptance_lemmas

variable {K : Type} [LinearOrderedField K]

theorem grand.relativemu_eq (M : libm K) (L : K) (N : Nat) :
    grand.k * grand.T * M.log (grand.h / M.sqrt (2 * M.pi * 39.948 * grand.k * grand.T)
        * (grand.h / M.sqrt (2 * M.pi * 39.948 * grand.k * grand.T))
        * (grand.h / M.sqrt (2 * M.pi * 39.948 * grand.k * grand.T))) * ((N : K) / (L * L * L))
      - grand.k * grand.T * M.log (grand.h / M.sqrt (2 * M.pi * 39.948 * grand.k * grand.T)
        * (grand.h / M.sqrt (2 * M.pi * 39.948 * grand.k * grand.T))
        * (grand.h / M.sqrt (2 * M.pi * 39.948 * grand.k * grand.T)))
      = mu_rel_spec M L N := by
  unfold mu_rel_spec thermal_wavelength
  have e1 : grand.h / M.sqrt (2 * M.pi * 39.948 * grand.k * grand.T)
        * (grand.h / M.sqrt (2 * M.pi * 39.948 * grand.k * grand.T))
        * (grand.h / M.sqrt (2 * M.pi * 39.948 * grand.k * grand.T))
      = (grand.h / M.sqrt (2 * M.pi * 39.948 * grand.k * grand.T)) ^ 3 := by ring
  have e2 : L * L * L = L ^ 3 := by ring
  rw [e1, e2]

theorem grand.move_acceptor_flag0 (M : libm K) (L : K) (particles : List (particle K))
    (cpe npe : K) (c : Int) (guess : K) (h : 0 ≤ npe - cpe) :
    (grand.move_acceptor M L particles cpe npe c 0 guess).1
      = decide (M.exp (-1 * (1 / (grand.k * grand.T)) * (npe - cpe)) > guess) := by
  unfold grand.move_acceptor
  simp only [if_neg (not_lt.mpr h), (by decide : ¬ ((1 : Int) = 0)), (by decide : ¬ ((2 : Int) = 0)),
    (by decide : ¬ ((2 : Int) = 1)), if_true, if_false]
  by_cases hp : M.exp (-1 * (1 / (grand.k * grand.T)) * (npe - cpe)) > guess
  · rw [if_pos hp]; exact (decide_eq_true hp).symm
  · rw [if_neg hp]; exact (decide_eq_false hp).symm

theorem grand.move_acceptor_flag2 (M : libm K) (L : K) (particles : List (particle K))
    (cpe npe : K) (c : Int) (guess : K) (h : 0 ≤ npe - cpe) :
    (grand.move_acceptor M L particles cpe npe c 2 guess).1
      = decide (deletion_condition_spec M L particles.length (npe - cpe) < 1) := by
  have e : (particles.length : K) / (L * L * L * M.exp (-(1 / (grand.k * grand.T) * (npe - cpe))
      - 1 / (grand.k * grand.T) * mu_rel_spec M L particles.length))
      = deletion_condition_spec M L particles.length (npe - cpe) := by
    unfold deletion_condition_spec
    have e2 : L * L * L = L ^ 3 := by ring
    rw [e2, neg_mul]
  unfold grand.move_acceptor
  simp only [if_neg (not_lt.mpr h), (by decide : ¬ ((1 : Int) = 0)), (by decide : ¬ ((2 : Int) = 0)),
    (by decide : ¬ ((2 : Int) = 1)), if_true, if_false]
  rw [grand.relativemu_eq, e]
  by_cases hp : deletion_condition_spec M L particles.length (npe - cpe) < 1
  · rw [if_pos hp]; exact (decide_eq_true hp).symm
  · rw [if_neg hp]; exact (decide_eq_false hp).symm

end acceptance_lemmas

section acceptance_rule_theorems

variable {K : Type} [LinearOrderedField K]

/-- C11. Metropolis rule for displacement: when `deltaE = npe - cpe ≥ 0`, for every
draw `guess` in `[0, 1]`, `E_checker`, and `move_acceptor` with flag `0`, return
`true` if and only if `guess < exp(-deltaE / (k*T))`. -/
theorem C11_metropolis_displacement (M : libm K) (cpe npe guess : K)
    (h : 0 ≤ npe - cpe) (_hguess : 0 ≤ guess ∧ guess ≤ 1) :
    (∀ c : Int, (NVT.E_checker M cpe npe c guess).1 = true
      ↔ guess < M.exp (-(npe - cpe) / (NVT.k * NVT.T))) ∧
    (∀ (L : K) (particles : List (particle K)) (c : Int),
      (grand.move_acceptor M L particles cpe npe c 0 guess).1 = true
      ↔ guess < M.exp (-(npe - cpe) / (grand.k * grand.T))) := by
  constructor
  · intro c
    have e : -1 * (1 / (NVT.k * NVT.T)) * (npe - cpe) = -(npe - cpe) / (NVT.k * NVT.T) := by
      ring
    unfold NVT.E_checker
    simp only []
    rw [if_neg (not_lt.mpr h), e]
    by_cases hp : M.exp (-(npe - cpe) / (NVT.k * NVT.T)) > guess
    · rw [if_pos hp]; simpa using hp
    · rw [if_neg hp]; simpa using hp
  · intro L particles c
    have e : -1 * (1 / (grand.k * grand.T)) * (npe - cpe)
        = -(npe - cpe) / (grand.k * grand.T) := by
      ring
    rw [grand.move_acceptor_flag0 M L particles cpe npe c guess h, e]
    simp

/-- C13. Deletion acceptance: when `deltaE = npe - cpe ≥ 0` and the flag is `2`,
`move_acceptor` returns `true` if and only if
`N / (V * exp(-beta*deltaE - beta*mu_rel)) < 1`, `N` being the size of the particle
list at the call; the result does not depend on the random draw. -/
theorem C13_deletion_acceptance (M : libm K) (L : K) (particles : List (particle K))
    (cpe npe : K) (c : Int) (h : 0 ≤ npe - cpe) :
    (∀ guess : K, (grand.move_acceptor M L particles cpe npe c 2 guess).1 = true
      ↔ deletion_condition_spec M L particles.length (npe - cpe) < 1) ∧
    (∀ guess guess2 : K, grand.move_acceptor M L particles cpe npe c 2 guess
      = grand.move_acceptor M L particles cpe npe c 2 guess2) := by
  constructor
  · intro guess
    rw [grand.move_acceptor_flag2 M L particles cpe npe c guess h, decide_eq_true_iff]
  · intro guess guess2
    unfold grand.move_acceptor
    simp only [if_neg (not_lt.mpr h), (by decide : ¬ ((1 : Int) = 0)), (by decide : ¬ ((2 : Int) = 0)),
      (by decide : ¬ ((2 : Int) = 1)), if_true, if_false]

end acceptance_rule_theorems

/-! ## Lemmas on the driver of NVT.c -/

section nvt_main_lemmas

variable {K : Type} [LinearOrderedField K]

theorem NVT.E_checker_log (M : libm K) (cpe npe : K) (c : Int) (guess : K) :
    (NVT.E_checker M cpe npe c guess).2
      = [(c, if (NVT.E_checker M cpe npe c guess).1 = true then npe else cpe)] := by
  unfold NVT.E_checker
  simp only []
  split_ifs <;> simp_all

theorem NVT.main_loop_nil (M : libm K) (L : K) (d : Nat → NVT.draws K) (v : NVT.main_vars K) :
    NVT.main_loop M L d [] v = v := rfl

theorem NVT.main_loop_cons (M : libm K) (L : K) (d : Nat → NVT.draws K) (c : Nat)
    (cs : List Nat) (v : NVT.main_vars K) :
    NVT.main_loop M L d (c :: cs) v
      = NVT.main_loop M L d cs (NVT.main_body M L (c : Int) (d c) v) := rfl

theorem NVT.main_body_counts (M : libm K) (L : K) (c : Int) (d : NVT.draws K)
    (v : NVT.main_vars K) :
    (NVT.main_body M L c d v).attempts = v.attempts + 1 ∧
    (NVT.main_body M L c d v).energies.length = v.energies.length + 1 ∧
    (NVT.main_body M L c d v).positions.length = v.positions.length + 1 ∧
    (NVT.main_body M L c d v).free_energies.length = v.free_energies.length + 1 := by
  unfold NVT.main_body
  simp only []
  split_ifs <;> simp [NVT.E_checker_log, NVT.helmholtz]

theorem NVT.main_loop_counts (M : libm K) (L : K) (d : Nat → NVT.draws K) (cs : List Nat)
    (v : NVT.main_vars K) :
    (NVT.main_loop M L d cs v).attempts = v.attempts + cs.length ∧
    (NVT.main_loop M L d cs v).energies.length = v.energies.length + cs.length ∧
    (NVT.main_loop M L d cs v).positions.length = v.positions.length + cs.length ∧
    (NVT.main_loop M L d cs v).free_energies.length = v.free_energies.length + cs.length := by
  induction cs generalizing v with
  | nil => simp [NVT.main_loop_nil]
  | cons c cs ih =>
    rw [NVT.main_loop_cons]
    obtain ⟨h1, h2, h3, h4⟩ := ih (NVT.main_body M L (c : Int) (d c) v)
    obtain ⟨b1, b2, b3, b4⟩ := NVT.main_body_counts M L (c : Int) (d c) v
    rw [h1, h2, h3, h4, b1, b2, b3, b4]
    simp only [List.length_cons]
    omega

theorem NVT.steps_length (m : Int) : (NVT.steps m).length = (m - 1).toNat := by
  simp [NVT.steps]

theorem NVT.main_counts (M : libm K) (L : K) (m : Int) (start : List (particle K))
    (d : Nat → NVT.draws K) :
    (NVT.main M L m start d).1.attempts = (m - 1).toNat ∧
    (NVT.main M L m start d).1.energies.length = (m - 1).toNat + 1 ∧
    (NVT.main M L m start d).1.positions.length = (m - 1).toNat + 1 ∧
    (NVT.main M L m start d).1.free_energies.length = (m - 1).toNat := by
  obtain ⟨h1, h2, h3, h4⟩ := NVT.main_loop_counts M L d (NVT.steps m) (NVT.main_init M L start)
  unfold NVT.main
  simp only []
  rw [h1, h2, h3, h4, NVT.steps_length]
  simp only [NVT.main_init, List.length_cons, List.length_nil]
  omega

/-- The sum of the energies written to `energies.dat`. -/
theorem NVT.main_body_sum (M : libm K) (L : K) (c : Int) (d : NVT.draws K)
    (v : NVT.main_vars K) (h : v.sum = (v.energies.map Prod.snd).sum) :
    (NVT.main_body M L c d v).sum = ((NVT.main_body M L c d v).energies.map Prod.snd).sum := by
  unfold NVT.main_body
  simp only []
  split_ifs with hacc
  · simp [NVT.E_checker_log, hacc, h]
  · simp [NVT.E_checker_log, hacc, h]

theorem NVT.main_loop_sum (M : libm K) (L : K) (d : Nat → NVT.draws K) (cs : List Nat)
    (v : NVT.main_vars K) (h : v.sum = (v.energies.map Prod.snd).sum) :
    (NVT.main_loop M L d cs v).sum
      = ((NVT.main_loop M L d cs v).energies.map Prod.snd).sum := by
  induction cs generalizing v with
  | nil => exact h
  | cons c cs ih =>
    rw [NVT.main_loop_cons]
    exact ih _ (NVT.main_body_sum M L (c : Int) (d c) v h)

/-- The uniform draws of `rand_p_mover` keep the particles in the box. -/
theorem NVT.rand_p_mover_inBox (L : K) (s : NVT.state K) (r : Nat) (u1 u2 u3 : K)
    (hbox : ∀ q ∈ s.particles, q.inBox L)
    (h1 : 0 ≤ u1 ∧ u1 < 1) (h2 : 0 ≤ u2 ∧ u2 < 1) (h3 : 0 ≤ u3 ∧ u3 < 1) :
    ∀ q ∈ (NVT.rand_p_mover L r u1 u2 u3 s).particles, q.inBox L := by
  intro q hq
  have hne : s.particles ≠ [] := by
    intro hnil
    simp [NVT.rand_p_mover, NVT.rand_p_mover_update, NVT.positionchecker, hnil] at hq
  obtain ⟨q0, hq0⟩ := List.exists_mem_of_ne_nil _ hne
  have hL : 0 < L := lt_of_le_of_lt (hbox q0 hq0 0).1 (hbox q0 hq0 0).2
  exact NVT.mover_inBox L s _ _ _ _ hbox (offset_mem L u1 hL h1.1 h1.2)
    (offset_mem L u2 hL h2.1 h2.2) (offset_mem L u3 hL h3.1 h3.2) q hq

theorem NVT.main_body_tracked (M : libm K) (L : K) (c : Int) (d : NVT.draws K)
    (v : NVT.main_vars K)
    (hbox : ∀ q ∈ v.s.particles, q.inBox L) (hcpe : v.cpe = NVT.PEfinder M L v.s.particles)
    (h1 : 0 ≤ d.u1 ∧ d.u1 < 1) (h2 : 0 ≤ d.u2 ∧ d.u2 < 1) (h3 : 0 ≤ d.u3 ∧ d.u3 < 1) :
    (∀ q ∈ (NVT.main_body M L c d v).s.particles, q.inBox L) ∧
    (NVT.main_body M L c d v).cpe
      = NVT.PEfinder M L (NVT.main_body M L c d v).s.particles := by
  unfold NVT.main_body
  simp only []
  split_ifs with hacc
  · exact ⟨NVT.rand_p_mover_inBox L v.s d.r d.u1 d.u2 d.u3 hbox h1 h2 h3, rfl⟩
  · have hundo : (NVT.rand_p_unmover L (NVT.rand_p_mover L d.r d.u1 d.u2 d.u3 v.s)).particles
        = v.s.particles := NVT.unmover_mover_particles L v.s _ _ _ _ hbox
    simp only [hundo]
    exact ⟨hbox, hcpe⟩

theorem NVT.main_loop_tracked (M : libm K) (L : K) (d : Nat → NVT.draws K) (cs : List Nat)
    (v : NVT.main_vars K)
    (hbox : ∀ q ∈ v.s.particles, q.inBox L) (hcpe : v.cpe = NVT.PEfinder M L v.s.particles)
    (hd : ∀ c, (0 ≤ (d c).u1 ∧ (d c).u1 < 1) ∧ (0 ≤ (d c).u2 ∧ (d c).u2 < 1) ∧
      (0 ≤ (d c).u3 ∧ (d c).u3 < 1)) :
    (∀ q ∈ (NVT.main_loop M L d cs v).s.particles, q.inBox L) ∧
    (NVT.main_loop M L d cs v).cpe
      = NVT.PEfinder M L (NVT.main_loop M L d cs v).s.particles := by
  induction cs generalizing v with
  | nil => exact ⟨hbox, hcpe⟩
  | cons c cs ih =>
    rw [NVT.main_loop_cons]
    obtain ⟨hb, hc⟩ := NVT.main_body_tracked M L (c : Int) (d c) v hbox hcpe
      (hd c).1 (hd c).2.1 (hd c).2.2
    exact ih _ hb hc

end nvt_main_lemmas

/-! ## Lemmas on the driver of grand.c -/

section grand_main_lemmas

variable {K : Type} [LinearOrderedField K]

end grand_main_lemmas

/-! ## Theorems on the acceptance rules, witnesses -/

/-- Witness of C11 over the reals, with `cpe = 0`, `npe = 1` and `guess = 1/2`. -/
theorem C11_metropolis_displacement_witness :
    (∀ c : Int, (NVT.E_checker ⟨Real.sqrt, Real.exp, Real.log, Real.pi⟩ 0 1 c (1 / 2)).1 = true
      ↔ (1 / 2 : ℝ) < Real.exp (-(1 - 0) / (NVT.k * NVT.T))) ∧
    (∀ (L : ℝ) (particles : List (particle ℝ)) (c : Int),
      (grand.move_acceptor ⟨Real.sqrt, Real.exp, Real.log, Real.pi⟩ L particles 0 1 c 0
        (1 / 2)).1 = true
      ↔ (1 / 2 : ℝ) < Real.exp (-(1 - 0) / (grand.k * grand.T))) :=
  C11_metropolis_displacement ⟨Real.sqrt, Real.exp, Real.log, Real.pi⟩ 0 1 (1 / 2)
    (by norm_num) (by norm_num)

/-- Witness of C13 over the reals: one particle in the list, `cpe = npe = 0`. -/
theorem C13_deletion_acceptance_witness :
    (∀ guess : ℝ, (grand.move_acceptor ⟨Real.sqrt, Real.exp, Real.log, Real.pi⟩ 22
        [particle.mk3 0 0 0] 0 0 1 2 guess).1 = true
      ↔ deletion_condition_spec ⟨Real.sqrt, Real.exp, Real.log, Real.pi⟩ (22 : ℝ)
          [particle.mk3 (0 : ℝ) 0 0].length (0 - 0) < 1) ∧
    (∀ guess guess2 : ℝ, grand.move_acceptor ⟨Real.sqrt, Real.exp, Real.log, Real.pi⟩ 22
        [particle.mk3 0 0 0] 0 0 1 2 guess
      = grand.move_acceptor ⟨Real.sqrt, Real.exp, Real.log, Real.pi⟩ 22
        [particle.mk3 0 0 0] 0 0 1 2 guess2) :=
  C13_deletion_acceptance ⟨Real.sqrt, Real.exp, Real.log, Real.pi⟩ 22 [particle.mk3 0 0 0]
    0 0 1 (by norm_num)

/-! ## Theorems on the drivers -/

section driver_theorems

variable {K : Type} [LinearOrderedField K]

/-- C15. Zero-step run: when the number read is `0`, `main` of `NVT.c` and `main` of
`grand.c` propose no move and leave the particle list as it was; the energy log is
the single record of step `0` with the energy of the initial configuration; the
trajectory of `NVT.c` holds exactly one frame. -/
theorem C15_zero_step_run [FloorRing K] (M : libm K) (L : K) (start : List (particle K))
    (dN : Nat → NVT.draws K) (dG : Nat → grand.draws K) :
    ((NVT.main M L 0 start dN).1.attempts = 0 ∧
      (NVT.main M L 0 start dN).1.s.particles = start ∧
      (NVT.main M L 0 start dN).1.energies = [(0, NVT.PEfinder M L start)] ∧
      (NVT.main M L 0 start dN).1.positions = [start]) ∧
    (∃ w : grand.main_vars K, grand.main M L 0 dG = some (w, 0) ∧
      w.s.particles = [] ∧
      w.out.energies = [(0, grand.pecalc M L [])] ∧ grand.pecalc M L [] = 0) := by
  have hN : NVT.steps 0 = [] := by simp [NVT.steps]
  have hG : grand.steps 0 = [] := by simp [grand.steps]
  constructor
  · simp only [NVT.main, hN, NVT.main_loop_nil, NVT.main_init]
    exact ⟨trivial, trivial, trivial, trivial⟩
  · refine ⟨grand.main_init M L, ?_, rfl, rfl, ?_⟩
    · simp only [grand.main, hG, grand.main_loop]
    · simp [grand.pecalc]

/-- C19. Average energy of `NVT.c`: for every number `m ≥ 1` read, the average
printed by `main` is the sum of the energies recorded in `energies.dat` divided by
`m`, and `energies.dat` holds exactly `m` records (the one of step `0` and one per
iteration, `npe` when the move is accepted and `cpe` when it is rejected). -/
theorem C19_nvt_average (M : libm K) (L : K) (m : Int) (hm : 1 ≤ m)
    (start : List (particle K)) (d : Nat → NVT.draws K) :
    (NVT.main M L m start d).2
      = ((NVT.main M L m start d).1.energies.map Prod.snd).sum / (m : K) ∧
    ((NVT.main M L m start d).1.energies.length : Int) = m ∧
    (∀ (c : Int) (dr : NVT.draws K) (v : NVT.main_vars K),
      (NVT.main_body M L c dr v).energies = v.energies ++
        [(c, if (NVT.E_checker M v.cpe (NVT.PEfinder M L
            (NVT.rand_p_mover L dr.r dr.u1 dr.u2 dr.u3 v.s).particles) c dr.guess).1 = true
          then NVT.PEfinder M L (NVT.rand_p_mover L dr.r dr.u1 dr.u2 dr.u3 v.s).particles
          else v.cpe)]) := by
  refine ⟨?_, ?_, ?_⟩
  · have hs := NVT.main_loop_sum M L d (NVT.steps m) (NVT.main_init M L start)
      (by simp [NVT.main_init])
    simp only [NVT.main]
    rw [hs]
  · obtain ⟨_, h2, _, _⟩ := NVT.main_counts M L m start d
    rw [h2]
    push_cast
    rw [Int.toNat_of_nonneg (by omega)]
    omega
  · intro c dr v
    unfold NVT.main_body
    simp only []
    split_ifs with hacc
    · simp [NVT.E_checker_log, hacc]
    · simp [NVT.E_checker_log, hacc]

/-- Tracked energy in exact arithmetic: if all initial coordinates lie in `[0, L)`
and the values of `uniformrand()` lie in `[0, 1)`, then after the loop of `main`,
for every number of iterations and all draws, `cpe` is `PEfinder` of the current
particle array (and all coordinates still lie in `[0, L)`).  This is a fact of
exact arithmetic only: it rests on the exact undo of a rejected move, which the
doubles of the source do not give. -/
theorem NVT.tracked_energy_over_field (M : libm K) (L : K) (m : Int) (start : List (particle K))
    (d : Nat → NVT.draws K) (hbox : ∀ q ∈ start, q.inBox L)
    (hd : ∀ c, (0 ≤ (d c).u1 ∧ (d c).u1 < 1) ∧ (0 ≤ (d c).u2 ∧ (d c).u2 < 1) ∧
      (0 ≤ (d c).u3 ∧ (d c).u3 < 1)) :
    (NVT.main M L m start d).1.cpe
      = NVT.PEfinder M L (NVT.main M L m start d).1.s.particles ∧
    (∀ q ∈ (NVT.main M L m start d).1.s.particles, q.inBox L) := by
  obtain ⟨hb, hc⟩ := NVT.main_loop_tracked M L d (NVT.steps m) (NVT.main_init M L start)
    hbox rfl hd
  exact ⟨hc, hb⟩

end driver_theorems

/-- Witness of C19 over the reals, with `m = 3` and `L = 200`. -/
theorem C19_nvt_average_witness :
    (NVT.main ⟨Real.sqrt, Real.exp, Real.log, Real.pi⟩ (200 : ℝ) 3
        [particle.mk3 0 0 0, particle.mk3 1 0 0] (fun _ => ⟨0, 1 / 2, 1 / 2, 1 / 2, 0⟩)).2
      = ((NVT.main ⟨Real.sqrt, Real.exp, Real.log, Real.pi⟩ (200 : ℝ) 3
        [particle.mk3 0 0 0, particle.mk3 1 0 0]
        (fun _ => ⟨0, 1 / 2, 1 / 2, 1 / 2, 0⟩)).1.energies.map Prod.snd).sum / ((3 : Int) : ℝ) :=
  (C19_nvt_average ⟨Real.sqrt, Real.exp, Real.log, Real.pi⟩ (200 : ℝ) 3 (by norm_num)
    [particle.mk3 0 0 0, particle.mk3 1 0 0] (fun _ => ⟨0, 1 / 2, 1 / 2, 1 / 2, 0⟩)).1

/-- C14, the code at a failing input, with `L = 22`.  On the empty initial state
`move_chooser` appends the particle `(20,5,5)` and returns the flag `0`, the flag
of a displacement.  `move_undoer(0)` is `particleunmover`, which leaves the list
with its one particle; and when the step is rejected in `main` (draw `guess = 1`),
the list after the step still holds the particle. -/
theorem C14_forced_insertion_failing_input :
    grand.move_chooser (22 : ℝ) ⟨0, 0, [], 10 / 11, 5 / 22, 5 / 22, 1⟩ grand.state.init
      = some (0, grand.thecreator 22 (10 / 11) (5 / 22) (5 / 22) grand.state.init) ∧
    (grand.thecreator (22 : ℝ) (10 / 11) (5 / 22) (5 / 22) grand.state.init).particles
      = [particle.mk3 20 5 5] ∧
    (grand.move_undoer 0 (grand.thecreator (22 : ℝ) (10 / 11) (5 / 22) (5 / 22)
      grand.state.init)).particles = [particle.mk3 20 5 5] ∧
    (grand.main_body ⟨Real.sqrt, Real.exp, Real.log, Real.pi⟩ (22 : ℝ) 1
        ⟨0, 0, [], 10 / 11, 5 / 22, 5 / 22, 1⟩
        (grand.main_init ⟨Real.sqrt, Real.exp, Real.log, Real.pi⟩ 22)).map
      (fun v => v.s.particles) = some [particle.mk3 20 5 5] := by
  refine ⟨?_, ?_, ?_, ?_⟩
  · simp [grand.move_chooser, grand.state.init]
  · norm_num [grand.thecreator, grand.state.init, particle.mk3_inj]
  · norm_num [grand.move_undoer, grand.particleunmover, grand.thecreator, grand.state.init,
      particle.mk3_x0, particle.mk3_x1, particle.mk3_x2, particle.mk3_setx0,
      particle.mk3_setx1, particle.mk3_setx2, particle.mk3_inj]
  · norm_num [grand.main_body, grand.main_init, grand.state.init, grand.move_chooser,
      grand.thecreator, grand.pecalc, grand.move_acceptor, grand.move_undoer,
      grand.particleunmover, particle.mk3_x0, particle.mk3_x1, particle.mk3_x2,
      particle.mk3_setx0, particle.mk3_setx1, particle.mk3_setx2, particle.mk3_inj]

/-- When `c` divides `N`, `qst_calc` returns the value of the formula with the exact
average `N/c`. -/
theorem grand.qst_calc_of_dvd {K : Type} [LinearOrderedField K] (q c : Int) (hc : c ≠ 0)
    (energy : K) :
    grand.qst_calc (q * c) energy c = qst_spec (((q * c : Int) : K)) energy (c : K) := by
  have hck : (c : K) ≠ 0 := Int.cast_ne_zero.mpr hc
  have ht : (q * c).tdiv c = q := Int.mul_tdiv_cancel q hc
  have ha : (((q * c : Int) : K)) / (c : K) = (q : K) := by
    push_cast
    field_simp
  unfold grand.qst_calc qst_spec
  simp only [ht, ha]
  ring

/-- C17, the code at a failing input: `qst_calc(10, -8, 4)`.  The quotient `10/4`
of two `int`s is `2`, so the function returns `101 - 3/12 = 100.75`, whereas the
formula of the claim with the average `10/4 = 2.5` gives `101 - 4/35`. -/
theorem C17_qst_failing_input :
    grand.qst_calc (10 : Int) (-8 : ℚ) 4 = 403 / 4 ∧
    qst_spec (10 : ℚ) (-8) 4 = 3531 / 35 ∧
    grand.qst_calc (10 : Int) (-8 : ℚ) 4 ≠ qst_spec (10 : ℚ) (-8) 4 := by
  have h1 : grand.qst_calc (10 : Int) (-8 : ℚ) 4 = 403 / 4 := by
    have ht : (10 : Int).tdiv 4 = 2 := by decide
    unfold grand.qst_calc
    simp only [ht]
    norm_num [grand.k, grand.T]
  have h2 : qst_spec (10 : ℚ) (-8) 4 = 3531 / 35 := by
    norm_num [qst_spec, grand.k, grand.T]
  refine ⟨h1, h2, ?_⟩
  rw [h1, h2]
  norm_num

/-! ## The free-energy log of NVT.c -/

section free_energy

variable {K : Type} [LinearOrderedField K]

end free_energy

section final_lemmas

variable {K : Type} [LinearOrderedField K]

/-- A pair at distance `r ≥ σ > 0` has a Lennard-Jones energy `≤ 0`. -/
theorem lj_spec_nonpos (epsilon sigma r : K) (he : 0 ≤ epsilon) (hs : 0 < sigma)
    (hr : sigma ≤ r) : lj_spec epsilon sigma r ≤ 0 := by
  have hr0 : 0 < r := lt_of_lt_of_le hs hr
  have hq0 : 0 ≤ sigma / r := div_nonneg hs.le hr0.le
  have hq1 : sigma / r ≤ 1 := (div_le_one hr0).mpr hr
  have h6 : 0 ≤ (sigma / r) ^ 6 := pow_nonneg hq0 6
  have h61 : (sigma / r) ^ 6 ≤ 1 := pow_le_one₀ hq0 hq1
  have e : lj_spec epsilon sigma r
      = 4 * epsilon * ((sigma / r) ^ 6 * ((sigma / r) ^ 6 - 1)) := by
    have hrne : r ≠ 0 := hr0.ne'
    unfold lj_spec
    rw [div_pow]
    field_simp
    ring
  rw [e]
  have : (sigma / r) ^ 6 * ((sigma / r) ^ 6 - 1) ≤ 0 :=
    mul_nonpos_of_nonneg_of_nonpos h6 (by linarith)
  have h4 : 0 ≤ 4 * epsilon := by linarith
  exact mul_nonpos_of_nonneg_of_nonpos h4 this

theorem pair_energy_nonpos (L r : K) (hL : (3.371914 : K) ≤ L / 2) : pair_energy L r ≤ 0 := by
  unfold pair_energy
  split_ifs with h
  · exact le_refl 0
  · exact lj_spec_nonpos _ _ r (by norm_num) (by norm_num) (le_trans hL (not_lt.mp h))

theorem list_sum_nonpos (l : List K) (h : ∀ x ∈ l, x ≤ 0) : l.sum ≤ 0 := by
  induction l with
  | nil => simp
  | cons a l ih =>
    rw [List.sum_cons]
    have ha := h a (List.mem_cons_self a l)
    have hl := ih (fun x hx => h x (List.mem_cons_of_mem a hx))
    linarith

theorem index_pair_sum_nonpos (t : Nat → Nat → K) (N : Nat) (h : ∀ b c, t b c ≤ 0) :
    index_pair_sum t N ≤ 0 := by
  unfold index_pair_sum
  apply list_sum_nonpos
  intro x hx
  simp only [List.mem_map] at hx
  obtain ⟨b, _, rfl⟩ := hx
  apply list_sum_nonpos
  intro y hy
  simp only [List.mem_map] at hy
  obtain ⟨c, _, rfl⟩ := hy
  exact h b c

theorem grand.qst_calc_eq (N : Int) (energy : K) (c : Int) :
    grand.qst_calc N energy c
      = grand.k * grand.T
        - (qst_average_N N c * (energy / (c : K)) / (c : K)
            - qst_average_N N c * (energy / (c : K))) / qst_denominator N c := rfl

end final_lemmas

section final_theorems

variable {K : Type} [LinearOrderedField K]

/-- C21. The total energy is never positive: for every particle list, `PEfinder`
with `L = 200` and `pecalc` with `L = 22` return a value `≤ 0`; a pair that is not
skipped has a distance `r ≥ L/2 > σ = 3.371914 > 0`, so the division `1/r` is only
made with `r > 0`. -/
theorem C21_energy_nonpositive (M : libm K) (ps : List (particle K)) :
    NVT.PEfinder M NVT.L_src ps ≤ 0 ∧ grand.pecalc M grand.L_src ps ≤ 0 ∧
    (∀ b c : Nat, ¬ (NVT.distfinder M NVT.L_src ps b c < NVT.L_src * 0.5) →
      (3.371914 : K) < NVT.distfinder M NVT.L_src ps b c ∧
      0 < NVT.distfinder M NVT.L_src ps b c) ∧
    (∀ b c : Nat, ¬ (grand.distfinder M grand.L_src ps b c < grand.L_src * 0.5) →
      (3.371914 : K) < grand.distfinder M grand.L_src ps b c ∧
      0 < grand.distfinder M grand.L_src ps b c) := by
  refine ⟨?_, ?_, ?_, ?_⟩
  · rw [NVT.PEfinder_eq_index_pair_sum]
    apply index_pair_sum_nonpos
    intro b c
    exact pair_energy_nonpos _ _ (by norm_num [NVT.L_src])
  · rw [grand.pecalc_eq_index_pair_sum]
    apply index_pair_sum_nonpos
    intro b c
    exact pair_energy_nonpos _ _ (by norm_num [grand.L_src])
  · intro b c h
    have h1 := not_lt.mp h
    have h2 : (NVT.L_src : K) * 0.5 = 100 := by norm_num [NVT.L_src]
    rw [h2] at h1
    constructor
    · exact lt_of_lt_of_le (by norm_num) h1
    · exact lt_of_lt_of_le (by norm_num) h1
  · intro b c h
    have h1 := not_lt.mp h
    have h2 : (grand.L_src : K) * 0.5 = 11 := by norm_num [grand.L_src]
    rw [h2] at h1
    constructor
    · exact lt_of_lt_of_le (by norm_num) h1
    · exact lt_of_lt_of_le (by norm_num) h1

/-- Deletion of the last particle in exact arithmetic: when `exp` is positive and
`L ≠ 0`, `move_acceptor` called with flag `2` on an empty particle list returns
`true` for every `cpe`, `npe` and draw, the denominator `V * term` of the deletion
test being a nonzero number.  This is a fact of exact arithmetic only: in doubles
`exp` underflows to `0` for a large `npe - cpe` (`cpe = 0`, `npe = 60000` gives
`exp(-838) = 0`), the quotient `0 / (V * 0)` is a NaN, and the test fails. -/
theorem grand.last_deletion_accepted_over_field (M : libm K) (hexp : ∀ a : K, 0 < M.exp a)
    (L : K) (hL : L ≠ 0) (cpe npe : K) (c : Int) (guess : K) :
    (grand.move_acceptor M L [] cpe npe c 2 guess).1 = true ∧
    L ^ 3 * M.exp (-(1 / (grand.k * grand.T)) * (npe - cpe)
      - 1 / (grand.k * grand.T) * mu_rel_spec M L 0) ≠ 0 := by
  constructor
  · by_cases h : npe - cpe < 0
    · exact grand.move_acceptor_of_neg M L [] cpe npe c 2 guess h
    · rw [grand.move_acceptor_flag2 M L [] cpe npe c guess (not_lt.mp h), decide_eq_true_iff]
      simp [deletion_condition_spec]
  · exact mul_ne_zero (pow_ne_zero 3 hL) (hexp _).ne'

/-- C23. Denominator of the QST: in `qst_calc` the average is the quotient of the
`int`s `N` and `c`; for `c ≥ 1` and `0 ≤ N < 2c` it is `0` or `1` and the denominator
`avgN⁴ − avgN²` is exactly `0`; for `N ≥ 2c` the denominator is strictly positive. -/
theorem C23_qst_denominator (N c : Int) (hc : 1 ≤ c) :
    (0 ≤ N → N < 2 * c →
      (N.tdiv c = 0 ∨ N.tdiv c = 1) ∧ (qst_denominator N c : K) = 0) ∧
    (2 * c ≤ N → (0 : K) < qst_denominator N c) ∧
    (∀ energy : K, grand.qst_calc N energy c
      = grand.k * grand.T
        - (qst_average_N N c * (energy / (c : K)) / (c : K)
            - qst_average_N N c * (energy / (c : K))) / qst_denominator N c) := by
  refine ⟨?_, ?_, fun energy => grand.qst_calc_eq N energy c⟩
  · intro h0 h2
    have hq : N.tdiv c = N / c := Int.tdiv_eq_ediv h0 (by omega)
    have hlo : 0 ≤ N / c := Int.ediv_nonneg h0 (by omega)
    have hhi : N / c < 2 := Int.ediv_lt_of_lt_mul (by omega) (by omega)
    have hcases : N.tdiv c = 0 ∨ N.tdiv c = 1 := by
      rw [hq]; omega
    refine ⟨hcases, ?_⟩
    unfold qst_denominator qst_average_N
    rcases hcases with h | h <;> simp [h]
  · intro h2
    have h0 : 0 ≤ N := by omega
    have hq : N.tdiv c = N / c := Int.tdiv_eq_ediv h0 (by omega)
    have hge : 2 ≤ N / c := (Int.le_ediv_iff_mul_le (by omega)).mpr (by omega)
    have hk : (2 : K) ≤ ((N.tdiv c : Int) : K) := by
      rw [hq]
      exact_mod_cast hge
    have ha2 : (4 : K) ≤ ((N.tdiv c : Int) : K) * ((N.tdiv c : Int) : K) := by nlinarith
    have hprod := mul_nonneg (sub_nonneg.mpr ha2)
      (le_trans (by norm_num) ha2 : (0 : K) ≤ ((N.tdiv c : Int) : K) * ((N.tdiv c : Int) : K))
    unfold qst_denominator qst_average_N
    simp only []
    nlinarith

end final_theorems

/-- Witness of C23 with `N = 3` and `c = 2` (the largest sum of particle counts that
step 2 of `main` can reach): the quotient is `1` and the denominator is `0`. -/
theorem C23_qst_denominator_witness :
    ((3 : Int).tdiv 2 = 0 ∨ (3 : Int).tdiv 2 = 1) ∧ (qst_denominator 3 2 : ℚ) = 0 :=
  (@C23_qst_denominator ℚ _ 3 2 (by decide)).1 (by decide) (by decide)
